import Mathlib

/-!
# Verification of the geohash-kit polygon-coverage engine

Shallow embedding of `src/core.ts` and `src/coverage.ts` (the authoritative
second revision in the repository snapshot) over exact rational arithmetic,
together with proofs and refutations of the specification's claims.

Conventions:
* JS `number` is modelled as `ℚ`; all coordinate arithmetic in the source is
  exact on the rational inputs used here (halving, addition, comparison).
* Geohash cell identifiers (`string`) are modelled as `List Char`.
* JS arrays used as stacks are modelled as Lean lists whose *head* is the top
  of the stack (the end of the JS array); pushes therefore prepend.
* A thrown exception is modelled as `Except.error` with a structured payload
  mirroring the error class and the data interpolated into the message.
-/

namespace GeohashKit

/-- A geohash cell identifier: a string over the base-32 alphabet
(`string` in `src/core.ts`). -/
abbrev Cell := List Char

/-- A `[lon, lat]` coordinate pair as used by `src/coverage.ts`
(`[number, number]`, x = longitude first). -/
abbrev Point := ℚ × ℚ

/-- The geohash alphabet from `src/core.ts`:
`const BASE32 = '0123456789bcdefghjkmnpqrstuvwxyz'`. -/
def BASE32 : List Char :=
  ['0','1','2','3','4','5','6','7','8','9','b','c','d','e','f','g',
   'h','j','k','m','n','p','q','r','s','t','u','v','w','x','y','z']

/-- `GeohashBounds` from `src/core.ts`. -/
structure GeohashBounds where
  minLat : ℚ
  maxLat : ℚ
  minLon : ℚ
  maxLon : ℚ
deriving DecidableEq, Repr

/-- The whole-world rectangle that `bounds` starts from. -/
def worldBounds : GeohashBounds :=
  { minLat := -90, maxLat := 90, minLon := -180, maxLon := 180 }

/-- One bisection step of `bounds` from `src/core.ts`: halve the longitude or
latitude interval according to the current bit. -/
def refineBit (isLon : Bool) (bit : Bool) (b : GeohashBounds) : GeohashBounds :=
  if isLon then
    let mid := (b.minLon + b.maxLon) / 2
    if bit then { b with minLon := mid } else { b with maxLon := mid }
  else
    let mid := (b.minLat + b.maxLat) / 2
    if bit then { b with minLat := mid } else { b with maxLat := mid }

/-- The five bits of one base-32 digit, most significant first
(`for (let bit = 4; bit >= 0; bit--) ... (bits >> bit) & 1`). -/
def charBits (idx : Nat) : List Bool :=
  [idx.testBit 4, idx.testBit 3, idx.testBit 2, idx.testBit 1, idx.testBit 0]

/-- Index of a character in the base-32 alphabet (`BASE32_DECODE`). -/
def base32Index (c : Char) : Nat := BASE32.indexOf c

/-- Fold the bit stream over the world rectangle, alternating lon/lat
(`isLon = !isLon` after every bit). -/
def boundsLoop : List Bool → Bool → GeohashBounds → GeohashBounds
  | [], _, b => b
  | bit :: rest, isLon, b => boundsLoop rest (!isLon) (refineBit isLon bit b)

/-- `bounds(hash)` from `src/core.ts`: the bounding rectangle of a cell. -/
def bounds (hash : Cell) : GeohashBounds :=
  boundsLoop (hash.flatMap fun c => charBits (base32Index c)) true worldBounds

/-- `children(hash)` from `src/core.ts`: the 32 child cells at the next
precision level, in alphabet order. -/
def children (hash : Cell) : List Cell :=
  BASE32.map fun c => hash ++ [c]

/-! ## Geometry predicates (`src/coverage.ts`) -/

/-- `cross(a, b, c)`: z-component of `(b - a) × (c - a)`. -/
def cross (a b c : Point) : ℚ :=
  (b.1 - a.1) * (c.2 - a.2) - (b.2 - a.2) * (c.1 - a.1)

/-- `onSegment(a, b, p)`: `p` lies within the bounding box of `a`-`b`. -/
def onSegment (a b p : Point) : Bool :=
  decide (min a.1 b.1 ≤ p.1) && decide (p.1 ≤ max a.1 b.1) &&
  decide (min a.2 b.2 ≤ p.2) && decide (p.2 ≤ max a.2 b.2)

/-- `segmentsIntersect(a1, a2, b1, b2)`: proper crossing via orientation signs,
plus collinear/touching handling (touching endpoints count as intersecting). -/
def segmentsIntersect (a1 a2 b1 b2 : Point) : Bool :=
  let d1 := cross b1 b2 a1
  let d2 := cross b1 b2 a2
  let d3 := cross a1 a2 b1
  let d4 := cross a1 a2 b2
  if ((decide (d1 > 0) && decide (d2 < 0)) || (decide (d1 < 0) && decide (d2 > 0))) &&
     ((decide (d3 > 0) && decide (d4 < 0)) || (decide (d3 < 0) && decide (d4 > 0))) then
    true
  else if d1 = 0 && onSegment b1 b2 a1 then true
  else if d2 = 0 && onSegment b1 b2 a2 then true
  else if d3 = 0 && onSegment a1 a2 b1 then true
  else if d4 = 0 && onSegment a1 a2 b2 then true
  else false

/-- The edge pairs `(polygon[i], polygon[j])` visited by the source's
`for (let i = 0, j = polygon.length - 1; i < polygon.length; j = i++)` loops:
the current vertex paired with its predecessor (wrapping around). -/
def edgePairs : List Point → List (Point × Point)
  | [] => []
  | p :: ps => (p :: ps).zip ((p :: ps).getLast (List.cons_ne_nil p ps) :: (p :: ps).dropLast)

/-- One iteration of the ray-casting loop in `pointInPolygon`. -/
def pipStep (px py : ℚ) (inside : Bool) (e : Point × Point) : Bool :=
  let xi := e.1.1
  let yi := e.1.2
  let xj := e.2.1
  let yj := e.2.2
  if (decide (yi > py) != decide (yj > py)) &&
      decide (px < (xj - xi) * (py - yi) / (yj - yi) + xi) then !inside else inside

/-- `pointInPolygon(point, polygon)` from `src/coverage.ts`: ray-casting parity
test.  The division is exact rational arithmetic; it is only reached when
`yj ≠ yi` thanks to the short-circuiting first conjunct. -/
def pointInPolygon (point : Point) (polygon : List Point) : Bool :=
  (edgePairs polygon).foldl (pipStep point.1 point.2) false

/-- The four corners of a bounds rectangle, in the order used by the source:
`[minLon,minLat], [maxLon,minLat], [maxLon,maxLat], [minLon,maxLat]`. -/
def cornersOf (b : GeohashBounds) : List Point :=
  [(b.minLon, b.minLat), (b.maxLon, b.minLat), (b.maxLon, b.maxLat), (b.minLon, b.maxLat)]

/-- The four edges of a bounds rectangle as corner pairs. -/
def boundsEdgesOf (b : GeohashBounds) : List (Point × Point) :=
  [((b.minLon, b.minLat), (b.maxLon, b.minLat)),
   ((b.maxLon, b.minLat), (b.maxLon, b.maxLat)),
   ((b.maxLon, b.maxLat), (b.minLon, b.maxLat)),
   ((b.minLon, b.maxLat), (b.minLon, b.minLat))]

/-- `boundsFullyInsidePolygon(bounds, polygon)`: all four corners inside and no
polygon edge intersecting a rectangle edge (JS passes the polygon edge as
`(polygon[j], polygon[i])`, i.e. predecessor first). -/
def boundsFullyInsidePolygon (b : GeohashBounds) (polygon : List Point) : Bool :=
  (cornersOf b).all (fun c => pointInPolygon c polygon) &&
    !((edgePairs polygon).any fun e =>
      (boundsEdgesOf b).any fun be => segmentsIntersect be.1 be.2 e.2 e.1)

/-- `boundsOverlapsPolygon(bounds, polygon)`: any corner inside, or any vertex
inside the rectangle, or any edge intersection. -/
def boundsOverlapsPolygon (b : GeohashBounds) (polygon : List Point) : Bool :=
  (cornersOf b).any (fun c => pointInPolygon c polygon) ||
    (polygon.any fun v =>
      decide (v.1 ≥ b.minLon) && decide (v.1 ≤ b.maxLon) &&
      decide (v.2 ≥ b.minLat) && decide (v.2 ≤ b.maxLat)) ||
    ((edgePairs polygon).any fun e =>
      (boundsEdgesOf b).any fun be => segmentsIntersect be.1 be.2 e.2 e.1)

/-! ## Cells: ancestors, validity, sorting -/

/-- `a` is a strict ancestor of `b`: a strictly shorter cell string that `b`
starts with (the spec's "strict prefix"). -/
def StrictAncestor (a b : Cell) : Prop :=
  a.length < b.length ∧ b.take a.length = a

instance (a b : Cell) : Decidable (StrictAncestor a b) := by
  unfold StrictAncestor; infer_instance

/-- A cell drawn from the geohash alphabet. -/
def ValidCell (h : Cell) : Prop := ∀ c ∈ h, c ∈ BASE32

instance (h : Cell) : Decidable (ValidCell h) := by
  unfold ValidCell; infer_instance

/-- No cell in the list is a strict ancestor of another cell in the list. -/
def AncFreeList (l : List Cell) : Prop :=
  ∀ a ∈ l, ∀ b ∈ l, ¬ StrictAncestor a b

/-- Lexicographic sorting, as the JS `Array.prototype.sort()` (code-unit
order; `Array.from(set)` never contains duplicates, so any comparison sort
produces this result). -/
def sortCells (l : List Cell) : List Cell :=
  l.insertionSort (· ≤ ·)

/-! ## The JS `Set`, modelled as an insertion-ordered duplicate-free list -/

/-- `set.add(x)`: append `x` unless already present. -/
def setAdd (l : List Cell) (x : Cell) : List Cell :=
  if x ∈ l then l else l ++ [x]

/-- `new Set(hashes)`: deduplicate, keeping first occurrences in order. -/
def setOfList (hashes : List Cell) : List Cell :=
  hashes.foldl setAdd []

/-! ## `mergeCompleteSiblings` (`src/coverage.ts`) -/

/-- Bump the counter for key `q` in an insertion-ordered association list
(a JS `Map` with `map.set(q, (map.get(q) ?? 0) + 1)`). -/
def bumpCount (m : List (Cell × Nat)) (q : Cell) : List (Cell × Nat) :=
  match m with
  | [] => [(q, 1)]
  | (k, n) :: rest => if k = q then (k, n + 1) :: rest else (k, n) :: bumpCount rest q

/-- The `parentCounts` map at level `p`: count the present cells of length `p`
grouped by their parent (`h.slice(0, -1)`). -/
def parentCounts (p : Nat) (l : List Cell) : List (Cell × Nat) :=
  l.foldl (fun m h => if h.length = p then bumpCount m h.dropLast else m) []

/-- The merge pass over `parentCounts`: for every parent whose count reaches
`minSiblings`, delete all its children from the set and add the parent. -/
def applyMerges (minSiblings : ℤ) (counts : List (Cell × Nat)) (l : List Cell) :
    List Cell :=
  counts.foldl
    (fun acc qc =>
      if minSiblings ≤ (qc.2 : ℤ) then setAdd ((children qc.1).foldl List.erase acc) qc.1
      else acc)
    l

/-- One level of the sibling merge. -/
def mergeLevel (minSiblings : ℤ) (p : Nat) (l : List Cell) : List Cell :=
  applyMerges minSiblings (parentCounts p l) l

/-- The level loop `for (let p = maxP; p > minPrecision; p--)` of
`mergeCompleteSiblings`, from level `p` downwards. -/
def mergeDown (minPrecision minSiblings : ℤ) : Nat → List Cell → List Cell
  | 0, l => l
  | p + 1, l =>
    if (p + 1 : ℤ) ≤ minPrecision then l
    else mergeDown minPrecision minSiblings p (mergeLevel minSiblings (p + 1) l)

/-- The maximum cell length present (`maxP` in the source; `0` when empty). -/
def maxLen (l : List Cell) : Nat :=
  l.foldl (fun m h => max m h.length) 0

/-- `mergeCompleteSiblings(hashes, minPrecision, minSiblings)` from
`src/coverage.ts` (returns `Array.from(set)`; both call sites `.sort()` the
result immediately). -/
def mergeCompleteSiblings (hashes : List Cell) (minPrecision minSiblings : ℤ) :
    List Cell :=
  let set := setOfList hashes
  mergeDown minPrecision minSiblings (maxLen set) set

/-! ## `deduplicateGeohashes` (`src/coverage.ts`) -/

/-- Step 1 of `deduplicateGeohashes`: `h` has a strict ancestor in the set
(`for (let len = 1; len < h.length; len++) if (set.has(h.slice(0, len)))`). -/
def hasAncestorIn (s : List Cell) (h : Cell) : Bool :=
  (List.range h.length).any fun len => decide (0 < len) && decide (h.take len ∈ s)

/-- `deduplicateGeohashes(hashes, options)` from `src/coverage.ts`: remove any
cell whose strict ancestor is present, then merge sibling groups bottom-up
with `minSiblings = lossy ? 30 : 32`, then sort. -/
def deduplicateGeohashes (hashes : List Cell) (lossy : Bool) : List Cell :=
  let s := setOfList hashes
  let filtered := s.filter fun h => !hasAncestorIn s h
  sortCells (mergeCompleteSiblings filtered 1 (if lossy then 30 else 32))

/-! ## `computeGeohashes` (`src/coverage.ts`): the subdivision engine -/

/-- JS `Math.round`: round half towards positive infinity. -/
def jsRound (q : ℚ) : ℤ := ⌊q + 1 / 2⌋

/-- The polygon's axis-aligned bounding box (`polyMinLon` … `polyMaxLat`).
`none` models the JS `±Infinity` initial values left untouched by an empty
polygon, for which every cell is rejected. -/
def polyAABB : List Point → Option GeohashBounds
  | [] => none
  | v :: vs =>
    some { minLat := (vs.map Prod.snd).foldl min v.2
           maxLat := (vs.map Prod.snd).foldl max v.2
           minLon := (vs.map Prod.fst).foldl min v.1
           maxLon := (vs.map Prod.fst).foldl max v.1 }

/-- The fast AABB rejection used on seeds and children:
`cb.maxLon < polyMinLon || cb.minLon > polyMaxLon || cb.maxLat < polyMinLat ||
cb.minLat > polyMaxLat`. -/
def aabbReject (aabb : Option GeohashBounds) (cb : GeohashBounds) : Bool :=
  match aabb with
  | none => true
  | some a =>
    decide (cb.maxLon < a.minLon) || decide (cb.minLon > a.maxLon) ||
    decide (cb.maxLat < a.minLat) || decide (cb.minLat > a.maxLat)

/-- `isFullyInside`: inside the outer ring and overlapping no hole. -/
def isFullyInside (polygon : List Point) (holes : List (List Point))
    (b : GeohashBounds) : Bool :=
  boundsFullyInsidePolygon b polygon &&
    holes.all fun hole => !boundsOverlapsPolygon b hole

/-- `doesOverlap`: overlaps the outer ring and fully inside no hole. -/
def doesOverlap (polygon : List Point) (holes : List (List Point))
    (b : GeohashBounds) : Bool :=
  boundsOverlapsPolygon b polygon &&
    holes.all fun hole => !boundsFullyInsidePolygon b hole

/-- The parameters of one `computeGeohashes` call. -/
structure CovParams where
  polygon : List Point
  holes : List (List Point)
  minPrecision : ℤ
  maxPrecision : ℤ
  coverageThreshold : ℚ
  bailout : Option ℚ

/-- `interiorMinPrecision = Math.ceil(minPrecision + (maxPrecision -
minPrecision) * coverageThreshold)`. -/
def CovParams.interiorMin (P : CovParams) : ℤ :=
  ⌈(P.minPrecision : ℚ) + ((P.maxPrecision : ℚ) - (P.minPrecision : ℚ)) * P.coverageThreshold⌉

/-- One child in the partial-overlap classification loop; the accumulator
holds (cells pushed so far, cells emitted so far), each in JS iteration
order. -/
def classifyChild (P : CovParams) (acc : List Cell × List Cell) (child : Cell) :
    List Cell × List Cell :=
  let cb := bounds child
  if aabbReject (polyAABB P.polygon) cb then acc
  else if isFullyInside P.polygon P.holes cb then
    if P.interiorMin ≤ (child.length : ℤ) then (acc.1, acc.2 ++ [child])
    else (acc.1 ++ [child], acc.2)
  else if doesOverlap P.polygon P.holes cb then (acc.1 ++ [child], acc.2)
  else acc

/-- Processing of one popped cell.  Returns `(pushes, emits)` where `pushes`
is in stack order (head = new top of stack, i.e. the JS array end after the
pushes) and `emits` in JS emission order. -/
def covStep (P : CovParams) (hash : Cell) : List Cell × List Cell :=
  let b := bounds hash
  if isFullyInside P.polygon P.holes b then
    if P.interiorMin ≤ (hash.length : ℤ) then ([], [hash])
    else ((children hash).reverse, [])
  else if P.maxPrecision ≤ (hash.length : ℤ) then
    if doesOverlap P.polygon P.holes b then ([], [hash]) else ([], [])
  else
    let cls := (children hash).foldl (classifyChild P) ([], [])
    (cls.1.reverse, cls.2)

/-- `if (result.length > limit) return null` — `limit` is `Infinity` when no
bailout was supplied. -/
def bailoutHit (bailout : Option ℚ) (n : Nat) : Bool :=
  match bailout with
  | none => false
  | some limit => decide ((n : ℚ) > limit)

/-- The `while (queue.length > 0)` loop, fuelled.  The queue list's head is
the top of the JS stack (`queue.pop()`); the result is accumulated in
reverse emission order (its order is irrelevant: both consumers build a set)
together with its running length `n` (a JS array knows its `length` in
constant time; `n = resultRev.length` throughout, see `covLoop_count`).
`none` = fuel exhausted (proven unreachable below), `some none` = bailed out
(JS `null`), `some (some r)` = completed with committed cells `r`. -/
def covLoop (P : CovParams) : Nat → List Cell → List Cell → Nat → Option (Option (List Cell))
  | 0, _, _, _ => none
  | _ + 1, [], resultRev, _ => some (some resultRev)
  | fuel + 1, hash :: rest, resultRev, n =>
    let step := covStep P hash
    let n2 := n + step.2.length
    if bailoutHit P.bailout n2 then some none
    else covLoop P fuel (step.1 ++ rest) (step.2.reverse ++ resultRev) n2

/-- The seed queue: the 32 precision-1 cells filtered by AABB, then by
effective-polygon overlap. -/
def seedCells (P : CovParams) : List Cell :=
  (children []).filter fun hash =>
    let b := bounds hash
    !aabbReject (polyAABB P.polygon) b && doesOverlap P.polygon P.holes b

/-- Upper bound on the length of any cell ever pushed onto the queue. -/
def covCap (P : CovParams) : Nat :=
  max P.maxPrecision.toNat P.interiorMin.toNat

/-- Termination measure of a single queue entry. -/
def cellMeasure (M : Nat) (h : Cell) : Nat := 33 ^ (M - h.length)

/-- Termination measure of the whole queue. -/
def queueMeasure (M : Nat) (q : List Cell) : Nat := (q.map (cellMeasure M)).sum

/-- Sufficient fuel for the subdivision loop started from the seed queue. -/
def covFuel (P : CovParams) : Nat := queueMeasure (covCap P) (seedCells P) + 1

/-- The subdivision loop of `computeGeohashes`, run with sufficient fuel
(the JS queue pops from the array end, so the seed list is reversed). -/
def computeGeohashesRun (P : CovParams) : Option (Option (List Cell)) :=
  covLoop P (covFuel P) (seedCells P).reverse [] 0

/-- `minSiblings = Math.round(24 + coverageThreshold * 8)`. -/
def minSiblingsOf (t : ℚ) : ℤ := jsRound (24 + t * 8)

/-- `computeGeohashes(polygon, holes, minPrecision, maxPrecision,
coverageThreshold, bailout)` from `src/coverage.ts`.  `none` is the JS `null`
(bailout exceeded); the fuel-exhaustion case of the run is also mapped to
`none` but is proven unreachable (`covLoop_completes`). -/
def computeGeohashes (polygon : List Point) (holes : List (List Point))
    (minPrecision maxPrecision : ℤ) (coverageThreshold : ℚ) (bailout : Option ℚ) :
    Option (List Cell) :=
  let P : CovParams :=
    { polygon := polygon, holes := holes, minPrecision := minPrecision,
      maxPrecision := maxPrecision, coverageThreshold := coverageThreshold,
      bailout := bailout }
  match computeGeohashesRun P with
  | none => none
  | some none => none
  | some (some resultRev) =>
    some (sortCells (mergeCompleteSiblings resultRev.reverse minPrecision
      (minSiblingsOf coverageThreshold)))

/-! ## `polygonToGeohashes` (`src/coverage.ts`) -/

/-- Structured stand-ins for the exceptions thrown by `src/coverage.ts`; the
`sizing` payload carries the data interpolated into the `RangeError` message
`"... requires at least ${fallback.length} cells at precision ${minPrecision} ..."`. -/
inductive CovError where
  | invalidOption (name : String)
  | noOuterRing
  | unsupportedInput
  | degeneratePolygon
  | antimeridianPolygon
  | antimeridianHull
  | sizing (minFeasibleCells : Nat) (atPrecision : ℤ)
deriving DecidableEq, Repr

deriving instance DecidableEq for Except

/-- The `PolygonInput` union from `src/geojson.ts`: a bare ring, a GeoJSON
Polygon's coordinate rings, or a GeoJSON MultiPolygon's coordinate rings. -/
inductive PolygonInput where
  | ring (vertices : List Point)
  | poly (coordinates : List (List Point))
  | multi (coordinates : List (List (List Point)))

/-- Whether the input takes the MultiPolygon branch of `polygonToGeohashes`
(`!Array.isArray(input) && input.type === 'MultiPolygon'`). -/
def PolygonInput.isMulti : PolygonInput → Bool
  | .multi _ => true
  | _ => false

/-- `NormalisedPolygon` from `src/coverage.ts`. -/
structure NormalisedPolygon where
  outer : List Point
  holes : List (List Point)

/-- `stripClosingVertex(ring)`: drop the final vertex when it duplicates the
first. -/
def stripClosingVertex (ring : List Point) : List Point :=
  match ring with
  | [] => []
  | v :: vs =>
    if vs ≠ [] ∧ (v :: vs).getLast (List.cons_ne_nil v vs) = v then (v :: vs).dropLast
    else v :: vs

/-- The GeoJSON-Polygon branch of `normalisePolygonInput`: first ring becomes
the outer ring (closing vertex stripped), remaining rings become holes with
degenerate rings silently discarded. -/
def normalisePolyCoords (coordinates : List (List Point)) :
    Except CovError NormalisedPolygon :=
  match coordinates with
  | [] => .error .noOuterRing
  | ring0 :: rest =>
    if ring0 = [] then .error .noOuterRing
    else
      .ok { outer := stripClosingVertex ring0
            holes := (rest.map stripClosingVertex).filter fun h => 3 ≤ h.length }

/-- `normalisePolygonInput(input)` from `src/coverage.ts` (the MultiPolygon
case throws `Unsupported input type`; `polygonToGeohashes` intercepts it
before this function is reached). -/
def normalisePolygonInput : PolygonInput → Except CovError NormalisedPolygon
  | .ring v => .ok { outer := v, holes := [] }
  | .poly c => normalisePolyCoords c
  | .multi _ => .error .unsupportedInput

/-- The antimeridian guard: some wrap-around edge spans more than 180° of
longitude (`Math.abs(p[i][0] - p[(i+1)%n][0]) > 180`). -/
def antimeridianEdge (ring : List Point) : Bool :=
  (List.range ring.length).any fun i =>
    decide (180 < |(ring.getD i (0, 0)).1 - (ring.getD ((i + 1) % ring.length) (0, 0)).1|)

/-- The per-ring guards of `polygonToGeohashes`: degeneracy first, then the
antimeridian edge walk. -/
def validateOuter (outer : List Point) : Except CovError Unit :=
  if outer.length < 3 then .error .degeneratePolygon
  else if antimeridianEdge outer then .error .antimeridianPolygon
  else .ok ()

/-- The optional `CoverageOptions` record. All JS numbers are modelled as `ℚ`,
so the source's `Number.isFinite` guards are vacuous here (every `ℚ` is a
finite number); the `maxCells < 1` guard is kept. -/
structure CoverageOptions where
  minPrecision : Option ℚ := none
  maxPrecision : Option ℚ := none
  maxCells : Option ℚ := none
  mergeThreshold : Option ℚ := none

/-- `minPrecision = Math.max(1, Math.min(9, Math.round(rawMin)))`. -/
def effMinP (o : CoverageOptions) : ℤ := max 1 (min 9 (jsRound (o.minPrecision.getD 1)))

/-- `maxPrecision = Math.max(minPrecision, Math.min(9, Math.round(rawMax)))`. -/
def effMaxP (o : CoverageOptions) : ℤ :=
  max (effMinP o) (min 9 (jsRound (o.maxPrecision.getD 9)))

/-- The effective `maxCells` (default 500). -/
def effMaxCells (o : CoverageOptions) : ℚ := o.maxCells.getD 500

/-- `threshold = Math.max(0, Math.min(1, rawThreshold))` (default 1.0). -/
def effThreshold (o : CoverageOptions) : ℚ := max 0 (min 1 (o.mergeThreshold.getD 1))

/-- The single-polygon retry loop `for (let mp = maxPrecision; mp >=
minPrecision; mp--)`: keep the first attempt that fits `maxCells`. -/
def attemptLoop (polygon : List Point) (holes : List (List Point)) (minP : ℤ)
    (t : ℚ) (mc bail : ℚ) : Nat → ℤ → Option (List Cell)
  | 0, _ => none
  | n + 1, mp =>
    match computeGeohashes polygon holes minP mp t (some bail) with
    | some r =>
      if (r.length : ℚ) ≤ mc then some r
      else attemptLoop polygon holes minP t mc bail n (mp - 1)
    | none => attemptLoop polygon holes minP t mc bail n (mp - 1)

/-- The single-polygon path of `polygonToGeohashes` after normalisation:
guards, retry loop, last-resort pass at `minPrecision` with threshold 0, and
the sizing `RangeError`. -/
def singlePath (np : NormalisedPolygon) (o : CoverageOptions) :
    Except CovError (List Cell) :=
  match validateOuter np.outer with
  | .error e => .error e
  | .ok _ =>
    let minP := effMinP o
    let maxP := effMaxP o
    let t := effThreshold o
    let mc := effMaxCells o
    match attemptLoop np.outer np.holes minP t mc (mc * 4) (maxP - minP + 1).toNat maxP with
    | some r => .ok r
    | none =>
      let fallback := (computeGeohashes np.outer np.holes minP minP 0 none).getD []
      if (fallback.length : ℚ) ≤ mc then .ok fallback
      else .error (.sizing fallback.length minP)

/-- One MultiPolygon attempt: concatenate the per-part results in order,
skipping degenerate parts, reporting `none` as soon as one part bails out. -/
def partsHashes (parts : List NormalisedPolygon) (minP mp : ℤ) (t bail : ℚ) :
    Option (List Cell) :=
  match parts with
  | [] => some []
  | part :: rest =>
    if part.outer.length < 3 then partsHashes rest minP mp t bail
    else
      match computeGeohashes part.outer part.holes minP mp t (some bail) with
      | none => none
      | some r => (partsHashes rest minP mp t bail).map fun tl => r ++ tl

/-- The MultiPolygon retry loop: merge and deduplicate across parts at each
precision level before testing the budget. -/
def multiAttemptLoop (parts : List NormalisedPolygon) (minP : ℤ) (t mc bail : ℚ) :
    Nat → ℤ → Option (List Cell)
  | 0, _ => none
  | n + 1, mp =>
    match partsHashes parts minP mp t bail with
    | none => multiAttemptLoop parts minP t mc bail n (mp - 1)
    | some all =>
      let merged := deduplicateGeohashes all false
      if (merged.length : ℚ) ≤ mc then some merged
      else multiAttemptLoop parts minP t mc bail n (mp - 1)

/-- The concatenated MultiPolygon fallback passes (`minPrecision`,
threshold 0, no bailout). -/
def multiFallbackAll (parts : List NormalisedPolygon) (minP : ℤ) : List Cell :=
  match parts with
  | [] => []
  | part :: rest =>
    if part.outer.length < 3 then multiFallbackAll rest minP
    else
      (computeGeohashes part.outer part.holes minP minP 0 none).getD [] ++
        multiFallbackAll rest minP

/-- Validation of all MultiPolygon parts before any subdivision work. -/
def validateParts : List NormalisedPolygon → Except CovError Unit
  | [] => .ok ()
  | p :: rest =>
    match validateOuter p.outer with
    | .error e => .error e
    | .ok _ => validateParts rest

/-- The MultiPolygon branch of `polygonToGeohashes`. -/
def multiPath (coords : List (List (List Point))) (o : CoverageOptions) :
    Except CovError (List Cell) :=
  if coords = [] then .ok []
  else
    match coords.mapM normalisePolyCoords with
    | .error e => .error e
    | .ok parts =>
      match validateParts parts with
      | .error e => .error e
      | .ok _ =>
        let minP := effMinP o
        let maxP := effMaxP o
        let t := effThreshold o
        let mc := effMaxCells o
        match multiAttemptLoop parts minP t mc (mc * 4) (maxP - minP + 1).toNat maxP with
        | some r => .ok r
        | none =>
          let fallback := deduplicateGeohashes (multiFallbackAll parts minP) false
          if (fallback.length : ℚ) ≤ mc then .ok fallback
          else .error (.sizing fallback.length minP)

/-- `polygonToGeohashes(input, options)` from `src/coverage.ts` (second
revision, the authoritative one).  Option finiteness guards are vacuous over
`ℚ`; the `maxCells < 1` guard is checked up front as in the source. -/
def polygonToGeohashes (input : PolygonInput) (o : CoverageOptions) :
    Except CovError (List Cell) :=
  if effMaxCells o < 1 then .error (.invalidOption "maxCells")
  else
    match input with
    | .multi coords => multiPath coords o
    | .ring v =>
      match normalisePolygonInput (.ring v) with
      | .error e => .error e
      | .ok np => singlePath np o
    | .poly coords =>
      match normalisePolygonInput (.poly coords) with
      | .error e => .error e
      | .ok np => singlePath np o

/-! ## `geohashesToConvexHull` (`src/coverage.ts`) -/

/-- Collect the distinct cell corners in first-seen order (the JS `Set` keyed
by the exact coordinate pair). -/
def collectCorners (hashes : List Cell) : List Point :=
  hashes.foldl
    (fun acc h =>
      (cornersOf (bounds h)).foldl
        (fun acc2 c => if c ∈ acc2 then acc2 else acc2 ++ [c]) acc)
    []

/-- The JS sort comparator `(a, b) => a[0] - b[0] || a[1] - b[1]`. -/
def pointLexLe (a b : Point) : Bool :=
  decide (a.1 < b.1) || (decide (a.1 = b.1) && decide (a.2 ≤ b.2))

/-- Insertion into a `pointLexLe`-sorted list. -/
def insertPoint (p : Point) : List Point → List Point
  | [] => [p]
  | q :: rest => if pointLexLe p q then p :: q :: rest else q :: insertPoint p rest

/-- Sorting by `(lon, lat)`; points are pairwise distinct at the call site, so
this agrees with the JS comparator sort. -/
def sortPoints (l : List Point) : List Point := l.foldr insertPoint []

/-- One point of a monotone-chain pass; the chain is kept reversed (head =
most recently pushed).  Mirrors the inner `while (... cross2D(...) <= 0) pop`. -/
def chainPush (chainRev : List Point) (p : Point) : List Point :=
  match chainRev with
  | b :: a :: rest => if cross a b p ≤ 0 then chainPush (a :: rest) p else p :: b :: a :: rest
  | _ => p :: chainRev

/-- `Math.max(...lons) - Math.min(...lons) > 180` (`false` on an empty list,
matching the JS `-Infinity > 180`). -/
def lonSpanExceeds180 (points : List Point) : Bool :=
  match points.map Prod.fst with
  | [] => false
  | l :: ls => decide (180 < ls.foldl max l - ls.foldl min l)

/-- `geohashesToConvexHull(hashes)` from `src/coverage.ts`: collect unique
corners, refuse antimeridian-straddling sets, then Andrew's monotone chain
(each chain's duplicated endpoint popped before concatenation). -/
def geohashesToConvexHull (hashes : List Cell) : Except CovError (List Point) :=
  if hashes = [] then .ok []
  else
    let points := collectCorners hashes
    if points.length < 3 then .ok points
    else if lonSpanExceeds180 points then .error .antimeridianHull
    else
      let sorted := sortPoints points
      let lowerRev := sorted.foldl chainPush []
      let upperRev := sorted.reverse.foldl chainPush []
      .ok (lowerRev.tail.reverse ++ upperRev.tail.reverse)

/-! ## Concrete inputs used by witnesses and counterexamples -/

/-- A small triangle overlapping exactly the two precision-1 cells `e` and
`s`. -/
def triPoly : List Point := [(-1, 1), (1, 1), (1, 2)]

/-- A rectangle spanning longitudes −1…46 and latitudes −1…35.  It strictly
contains 24 of the 32 precision-2 children of cell `s` (all four columns of
rows 1–6) and crosses the row-7 cells, so at `maxPrecision = 3` the row-7
area is covered by precision-3 cells while the 24 interior children form a
near-complete sibling group. -/
def rectPoly : List Point := [(-1, -1), (46, -1), (46, 35), (-1, 35)]

/-- The unit square as a ring of `[lon, lat]` vertices. -/
def unitSquare : List Point := [(0, 0), (1, 0), (1, 1), (0, 1)]

/-- A ring all of whose latitudes lie outside the valid range `[-90, 90]`. -/
def latOutOfRangePoly : List Point := [(0, 91), (1, 91), (1, 92)]

/-- The parent cell of the spec's synthetic compaction scenarios. -/
def gcpCell : Cell := ['g', 'c', 'p']

/-- 30 of the 32 children of `gcp` plus one deeper cell lying under one of
the two missing children. -/
def lossyDedupInput : List Cell :=
  (children gcpCell).take 30 ++ [['g', 'c', 'p', 'z', '1']]

/-- Options for the small triangle: a single precision level, roomy budget. -/
def triOpts : CoverageOptions :=
  { minPrecision := some 1, maxPrecision := some 1, maxCells := some 500,
    mergeThreshold := some 1 }

/-- Options forcing the sizing error on the triangle: it needs 2 cells but
`maxCells = 1`. -/
def sizingOpts : CoverageOptions :=
  { minPrecision := some 1, maxPrecision := some 1, maxCells := some 1,
    mergeThreshold := some 1 }

/-- Options under which `rectPoly`'s cover merges a 24-sibling group
(`mergeThreshold = 0` gives `minSiblings = 24`) while precision-3 cells
survive under the merged parent. -/
def lossyCoverOpts : CoverageOptions :=
  { minPrecision := some 1, maxPrecision := some 3, maxCells := some 500,
    mergeThreshold := some 0 }

/-- Options (`maxCells = 30`, precisions 1–2) under which `rectPoly`'s cover
at `mergeThreshold = 0` fits at `maxPrecision` but the `mergeThreshold = 1`
cover does not and steps down to precision 1. -/
def monoOpts0 : CoverageOptions :=
  { minPrecision := some 1, maxPrecision := some 2, maxCells := some 30,
    mergeThreshold := some 0 }

/-- As `monoOpts0` with `mergeThreshold = 1`. -/
def monoOpts1 : CoverageOptions :=
  { minPrecision := some 1, maxPrecision := some 2, maxCells := some 30,
    mergeThreshold := some 1 }

/-- Whether a call returned normally with two cells of which one is a strict
ancestor of the other (`false` for a thrown error). -/
def hasReturnedAncPair (e : Except CovError (List Cell)) : Bool :=
  match e with
  | .ok r => r.any fun a => r.any fun b => decide (StrictAncestor a b)
  | .error _ => false


/-! ### Cell relations used by the invariance proofs -/

/-- Two cells are independent: distinct and neither is a strict ancestor of
the other, so their cells denote disjoint regions of the plane. -/
def Indep (a b : Cell) : Prop :=
  a ≠ b ∧ ¬ StrictAncestor a b ∧ ¬ StrictAncestor b a

/-- No cell of the list has a nonempty strict ancestor in the list (exactly
the relation `hasAncestorIn` can detect: the JS loop starts at `len = 1`). -/
def NEAncFree (l : List Cell) : Prop :=
  ∀ a ∈ l, ∀ b ∈ l, a ≠ [] → ¬ StrictAncestor a b

/-- Every cell of the list is drawn from the geohash alphabet. -/
def AllValid (l : List Cell) : Prop :=
  ∀ h ∈ l, ValidCell h

instance (l : List Cell) : Decidable (AllValid l) := by
  unfold AllValid
  infer_instance

/-- Lookup in an insertion-ordered counter list (`map.get(q) ?? 0`). -/
def alookup (m : List (Cell × Nat)) (q : Cell) : Nat :=
  match m with
  | [] => 0
  | (k, n) :: rest => if k = q then n else alookup rest q

/-- The number of cells of length `p` in the list whose parent slice is `q`. -/
def grpCount (p : Nat) (q : Cell) (l : List Cell) : Nat :=
  (l.filter fun h => decide (h.length = p) && decide (h.dropLast = q)).length

/-- No parent of positive length has all 32 of its children in the list. -/
def NoFull (l : List Cell) : Prop :=
  ∀ q : Cell, 1 ≤ q.length → ¬ ∀ c ∈ children q, c ∈ l

/-- Invariant carried through the `applyMerges` fold at level `p` over a set
whose entry state was `l`: duplicate-freeness, validity, absence of nonempty
strict-ancestor pairs, and the fact that every member either comes from `l`
or is a parent added at this level (length `p - 1`). -/
def MergeInv (p : Nat) (l : List Cell) (acc : List Cell) : Prop :=
  acc.Nodup ∧ AllValid acc ∧ NEAncFree acc ∧ (∀ x ∈ acc, x ∈ l ∨ x.length + 1 = p)

/-- A queue or result cell of a `computeGeohashes` run: alphabet-valid,
nonempty, and (when the parameter cap is positive) within the depth cap. -/
def GoodCell (P : CovParams) (h : Cell) : Prop :=
  ValidCell h ∧ h ≠ [] ∧ (1 ≤ covCap P → h.length ≤ covCap P)

end GeohashKit

/- Batteries marks the `Rat` field operations `@[irreducible]`.  The kernel
ignores reducibility; restoring the default lets `decide` evaluate the
embedding on concrete rational inputs.  All proofs still go through the
kernel. -/
attribute [local semireducible] Rat.add Rat.sub Rat.mul Rat.inv Rat.ofScientific

/- Evaluating the engine on concrete polygons takes deep, long reductions. -/
set_option maxRecDepth 1000000
set_option maxHeartbeats 40000000

namespace GeohashKit

/-- C4 (counterexample): the point `(1, 1/2)` lies exactly on the edge from
`(1, 0)` to `(1, 1)` of the unit square — by the source's own predicates it
is collinear with the edge (`cross = 0`) and within its bounding box
(`onSegment`) — yet `pointInPolygon` reports it outside, refuting the claim
that a point exactly on a ring edge is treated as inside. -/
theorem boundary_point_counterexample :
    cross (1, 0) (1, 1) (1, 1/2) = 0 ∧
    onSegment (1, 0) (1, 1) (1, 1/2) = true ∧
    pointInPolygon (1, 1/2) unitSquare = false :=
  ⟨by decide, by decide, by decide⟩

/-- C4 (amended): the ray-casting tie-break is deterministic but
edge-dependent, not uniformly "inside": on the unit square the midpoints of
the left and bottom edges test inside while the midpoints of the right and
top edges test outside. -/
theorem boundary_point_edge_dependent :
    pointInPolygon (0, 1/2) unitSquare = true ∧
    pointInPolygon (1, 1/2) unitSquare = false ∧
    pointInPolygon (1/2, 0) unitSquare = true ∧
    pointInPolygon (1/2, 1) unitSquare = false :=
  ⟨by decide, by decide, by decide, by decide⟩

/-- C5 (code bug): `polygonToGeohashes` performs no coordinate-range
validation.  A ring whose every latitude exceeds 90 — the first conjunct
exhibits the out-of-range vertex — is accepted and returns the empty cover
normally instead of raising a `RangeError` as the specification (and the
repository's own README and compiled demo bundle) prescribe. -/
theorem out_of_range_vertex_accepted :
    (∀ v ∈ latOutOfRangePoly, (90 : ℚ) < v.2) ∧
    polygonToGeohashes (.ring latOutOfRangePoly) {} = .ok [] :=
  ⟨by decide, by decide⟩

/-- C9: the synthetic compaction scenarios.  All 32 children of `gcp`
compact to exactly `[gcp]` in exact mode (the `mergeThreshold = 1.0`
behaviour, `minSiblings = 32`); with only 30 of the 32 present they stay 30
distinct cells in exact mode, and collapse to `[gcp]` in the explicit lossy
(`≥ 30/32`) mode. -/
theorem compaction_scenarios :
    deduplicateGeohashes (children gcpCell) false = [gcpCell] ∧
    deduplicateGeohashes ((children gcpCell).take 30) false =
      (children gcpCell).take 30 ∧
    deduplicateGeohashes ((children gcpCell).take 30) true = [gcpCell] :=
  ⟨by decide, by decide, by decide⟩

/-- C7 (counterexample): the compactor is not idempotent in lossy mode.  On
30 of `gcp`'s children plus the deeper cell `gcpz1` (whose parent `gcpz` is
absent), one lossy pass merges the 30 siblings into `gcp` while keeping
`gcpz1`; a second pass then removes `gcpz1` as a descendant of `gcp`, so
re-running the compactor changes the result. -/
theorem dedup_lossy_not_idempotent :
    deduplicateGeohashes (deduplicateGeohashes lossyDedupInput true) true ≠
      deduplicateGeohashes lossyDedupInput true :=
  by decide

/-! ### Termination of the subdivision loop (C10) -/

theorem classifyChild_fst_cases (P : CovParams) (acc : List Cell × List Cell)
    (x : Cell) :
    (classifyChild P acc x).1 = acc.1 ∨ (classifyChild P acc x).1 = acc.1 ++ [x] := by
  unfold classifyChild
  by_cases g1 : aabbReject (polyAABB P.polygon) (bounds x) = true <;>
    by_cases g2 : isFullyInside P.polygon P.holes (bounds x) = true <;>
      by_cases g3 : doesOverlap P.polygon P.holes (bounds x) = true <;>
        by_cases g4 : P.interiorMin ≤ (x.length : ℤ) <;>
          simp [g1, g2, g3, g4]

theorem foldl_classify_fst_mem (P : CovParams) (cs : List Cell) :
    ∀ (acc : List Cell × List Cell) (c : Cell),
      c ∈ (cs.foldl (classifyChild P) acc).1 → c ∈ acc.1 ∨ c ∈ cs := by
  induction cs with
  | nil => intro acc c hc; exact .inl hc
  | cons x rest ih =>
    intro acc c hc
    rcases ih (classifyChild P acc x) c hc with h | h
    · rcases classifyChild_fst_cases P acc x with he | he
      · rw [he] at h; exact .inl h
      · rw [he] at h
        rcases List.mem_append.mp h with h' | h'
        · exact .inl h'
        · exact .inr (by simp [List.mem_singleton.mp h'])
    · exact .inr (List.mem_cons_of_mem x h)

theorem foldl_classify_fst_len (P : CovParams) (cs : List Cell) :
    ∀ acc : List Cell × List Cell,
      (cs.foldl (classifyChild P) acc).1.length ≤ acc.1.length + cs.length := by
  induction cs with
  | nil => intro acc; simp
  | cons x rest ih =>
    intro acc
    calc (rest.foldl (classifyChild P) (classifyChild P acc x)).1.length
        ≤ (classifyChild P acc x).1.length + rest.length := ih _
      _ ≤ acc.1.length + 1 + rest.length := by
          rcases classifyChild_fst_cases P acc x with he | he <;> simp [he]
      _ = acc.1.length + (x :: rest).length := by simp; omega

theorem mem_children_length {c h : Cell} (hc : c ∈ children h) :
    c.length = h.length + 1 := by
  rcases List.mem_map.mp hc with ⟨d, _, rfl⟩
  simp

theorem children_count (h : Cell) : (children h).length = 32 := by
  simp [children, BASE32]

theorem covStep_fst_mem (P : CovParams) (h : Cell) :
    ∀ c ∈ (covStep P h).1, c ∈ children h := by
  intro c hc
  unfold covStep at hc
  by_cases g1 : isFullyInside P.polygon P.holes (bounds h) = true <;>
    by_cases g2 : P.interiorMin ≤ (h.length : ℤ) <;>
      by_cases g3 : P.maxPrecision ≤ (h.length : ℤ) <;>
        by_cases g4 : doesOverlap P.polygon P.holes (bounds h) = true <;>
          simp [g1, g2, g3, g4] at hc
  all_goals first
    | exact hc
    | · rcases foldl_classify_fst_mem P (children h) ([], []) c hc with h' | h'
        · simp at h'
        · exact h'

theorem covStep_fst_len (P : CovParams) (h : Cell) :
    (covStep P h).1.length ≤ 32 := by
  unfold covStep
  by_cases g1 : isFullyInside P.polygon P.holes (bounds h) = true <;>
    by_cases g2 : P.interiorMin ≤ (h.length : ℤ) <;>
      by_cases g3 : P.maxPrecision ≤ (h.length : ℤ) <;>
        by_cases g4 : doesOverlap P.polygon P.holes (bounds h) = true <;>
          simp [g1, g2, g3, g4, children_count]
  all_goals
    have := foldl_classify_fst_len P (children h) ([], [])
    simpa [children_count] using this

theorem covStep_fst_nil (P : CovParams) (h : Cell)
    (h1 : P.interiorMin ≤ (h.length : ℤ)) (h2 : P.maxPrecision ≤ (h.length : ℤ)) :
    (covStep P h).1 = [] := by
  unfold covStep
  by_cases g1 : isFullyInside P.polygon P.holes (bounds h) = true <;>
    by_cases g4 : doesOverlap P.polygon P.holes (bounds h) = true <;>
      simp [g1, g4, h1, h2]

theorem covStep_fst_nil_of_cap (P : CovParams) (h : Cell)
    (hc : covCap P ≤ h.length) : (covStep P h).1 = [] := by
  refine covStep_fst_nil P h ?_ ?_
  · calc P.interiorMin ≤ (P.interiorMin.toNat : ℤ) := Int.self_le_toNat _
      _ ≤ (covCap P : ℤ) := by
          exact_mod_cast Nat.cast_le.mpr (le_max_right _ _)
      _ ≤ (h.length : ℤ) := by exact_mod_cast hc
  · calc P.maxPrecision ≤ (P.maxPrecision.toNat : ℤ) := Int.self_le_toNat _
      _ ≤ (covCap P : ℤ) := by
          exact_mod_cast Nat.cast_le.mpr (le_max_left _ _)
      _ ≤ (h.length : ℤ) := by exact_mod_cast hc

theorem queueMeasure_append (M : Nat) (a b : List Cell) :
    queueMeasure M (a ++ b) = queueMeasure M a + queueMeasure M b := by
  simp [queueMeasure]

theorem queueMeasure_cons (M : Nat) (c : Cell) (q : List Cell) :
    queueMeasure M (c :: q) = cellMeasure M c + queueMeasure M q := by
  simp [queueMeasure]

theorem queueMeasure_reverse (M : Nat) (q : List Cell) :
    queueMeasure M q.reverse = queueMeasure M q := by
  unfold queueMeasure
  rw [List.map_reverse, List.sum_reverse]

theorem covStep_measure_lt (P : CovParams) (h : Cell) :
    queueMeasure (covCap P) (covStep P h).1 < cellMeasure (covCap P) h := by
  by_cases hc : covCap P ≤ h.length
  · rw [covStep_fst_nil_of_cap P h hc]
    exact pow_pos (by norm_num) _
  · push_neg at hc
    have hlen : ∀ c ∈ (covStep P h).1, cellMeasure (covCap P) c = 33 ^ (covCap P - h.length - 1) := by
      intro c hmem
      have hc1 := mem_children_length (covStep_fst_mem P h c hmem)
      unfold cellMeasure
      rw [hc1, Nat.sub_sub]
    have hsum : queueMeasure (covCap P) (covStep P h).1 ≤
        (covStep P h).1.length * 33 ^ (covCap P - h.length - 1) := by
      unfold queueMeasure
      calc ((covStep P h).1.map (cellMeasure (covCap P))).sum
          ≤ ((covStep P h).1.map (cellMeasure (covCap P))).length •
              (33 ^ (covCap P - h.length - 1)) := by
            refine List.sum_le_card_nsmul _ _ ?_
            intro x hx
            rcases List.mem_map.mp hx with ⟨c, hcm, rfl⟩
            rw [hlen c hcm]
        _ = (covStep P h).1.length * 33 ^ (covCap P - h.length - 1) := by
            simp [smul_eq_mul]
    calc queueMeasure (covCap P) (covStep P h).1
        ≤ (covStep P h).1.length * 33 ^ (covCap P - h.length - 1) := hsum
      _ ≤ 32 * 33 ^ (covCap P - h.length - 1) :=
          Nat.mul_le_mul_right _ (covStep_fst_len P h)
      _ < 33 * 33 ^ (covCap P - h.length - 1) := by
          have : (0:Nat) < 33 ^ (covCap P - h.length - 1) := pow_pos (by norm_num) _
          omega
      _ = 33 ^ (covCap P - h.length - 1 + 1) := by ring
      _ = cellMeasure (covCap P) h := by
          unfold cellMeasure
          congr 1
          omega

theorem covLoop_completes (P : CovParams) :
    ∀ (fuel : Nat) (q r : List Cell) (n : Nat),
      queueMeasure (covCap P) q < fuel → covLoop P fuel q r n ≠ none := by
  intro fuel
  induction fuel with
  | zero => intro q r n hq; omega
  | succ fuel ih =>
    intro q r n hq
    match q with
    | [] => simp [covLoop]
    | h :: rest =>
      rw [covLoop]
      split
      · simp
      · refine ih _ _ _ ?_
        have hstep := covStep_measure_lt P h
        have hcons := queueMeasure_cons (covCap P) h rest
        have happ := queueMeasure_append (covCap P) (covStep P h).1 rest
        omega

/-- Fuel-sufficiency at the top level: the canonical run never exhausts its
fuel, for any parameters. -/
theorem computeGeohashesRun_ne_none (P : CovParams) : computeGeohashesRun P ≠ none := by
  unfold computeGeohashesRun covFuel
  refine covLoop_completes P _ _ _ _ ?_
  rw [queueMeasure_reverse]
  omega

/-- C10: the work-stack subdivision terminates.  Under the stated parameter
constraints: every cell pushed by processing `hash` is exactly one character
longer than `hash`; a cell of length at least `maxPrecision` pushes no
children; and the fuelled loop, started from the seed queue with the
canonical fuel, completes (never returns the fuel-exhaustion marker), so the
loop performs finitely many iterations. -/
theorem subdivision_terminates (polygon : List Point) (holes : List (List Point))
    (minP maxP : ℤ) (t : ℚ) (bailout : Option ℚ)
    (h1 : 1 ≤ minP) (h2 : minP ≤ maxP) (h3 : 0 ≤ t) (h4 : t ≤ 1) :
    (∀ hash : Cell, ∀ c ∈ (covStep (CovParams.mk polygon holes minP maxP t bailout) hash).1,
        c.length = hash.length + 1) ∧
    (∀ hash : Cell, maxP ≤ (hash.length : ℤ) →
        (covStep (CovParams.mk polygon holes minP maxP t bailout) hash).1 = []) ∧
    computeGeohashesRun (CovParams.mk polygon holes minP maxP t bailout) ≠ none := by
  refine ⟨?_, ?_, computeGeohashesRun_ne_none _⟩
  · intro hash c hc
    exact mem_children_length (covStep_fst_mem _ hash c hc)
  · intro hash hh
    have hint : (CovParams.mk polygon holes minP maxP t bailout).interiorMin ≤ maxP := by
      unfold CovParams.interiorMin
      rw [Int.ceil_le]
      have h2q : (minP:ℚ) ≤ (maxP:ℚ) := by exact_mod_cast h2
      have hd : (0:ℚ) ≤ (maxP:ℚ) - (minP:ℚ) := by linarith
      have hm := mul_le_of_le_one_right hd h4
      push_cast
      linarith [hm]
    exact covStep_fst_nil _ hash (le_trans hint hh) hh

/-- C10 (witness): the loop completes on the small triangle at precision 1. -/
theorem subdivision_terminates_witness :
    computeGeohashesRun (CovParams.mk triPoly [] 1 1 1 none) ≠ none :=
  (subdivision_terminates triPoly [] 1 1 1 none (by norm_num) (by norm_num)
    (by norm_num) (by norm_num)).2.2

/-! ### The hull's antimeridian guard (C8) -/

theorem refineBit_lt (isLon bit : Bool) (b : GeohashBounds)
    (hlat : b.minLat < b.maxLat) (hlon : b.minLon < b.maxLon) :
    (refineBit isLon bit b).minLat < (refineBit isLon bit b).maxLat ∧
    (refineBit isLon bit b).minLon < (refineBit isLon bit b).maxLon := by
  unfold refineBit
  by_cases h1 : isLon <;> by_cases h2 : bit <;>
    simp [h1, h2] <;> constructor <;> linarith

theorem boundsLoop_lt (bits : List Bool) :
    ∀ (isLon : Bool) (b : GeohashBounds),
      b.minLat < b.maxLat → b.minLon < b.maxLon →
      (boundsLoop bits isLon b).minLat < (boundsLoop bits isLon b).maxLat ∧
      (boundsLoop bits isLon b).minLon < (boundsLoop bits isLon b).maxLon := by
  induction bits with
  | nil => intro isLon b h1 h2; exact ⟨h1, h2⟩
  | cons bit rest ih =>
    intro isLon b h1 h2
    have := refineBit_lt isLon bit b h1 h2
    exact ih (!isLon) _ this.1 this.2

theorem bounds_lt (h : Cell) :
    (bounds h).minLat < (bounds h).maxLat ∧ (bounds h).minLon < (bounds h).maxLon := by
  unfold bounds
  exact boundsLoop_lt _ true worldBounds (by norm_num [worldBounds]) (by norm_num [worldBounds])

theorem cornersOf_nodup (b : GeohashBounds)
    (hlat : b.minLat < b.maxLat) (hlon : b.minLon < b.maxLon) :
    (cornersOf b).Nodup := by
  have h1 := hlat.ne
  have h2 := hlon.ne
  simp [cornersOf, List.nodup_cons, Prod.mk.injEq]
  refine ⟨⟨?_, ?_, ?_⟩, ⟨?_, ?_⟩, ?_⟩ <;> intro hh <;> simp_all

/-- The inner corner-collection fold only appends. -/
theorem corner_fold_sub (corners : List Point) :
    ∀ acc : List Point,
      acc ⊆ corners.foldl (fun acc2 c => if c ∈ acc2 then acc2 else acc2 ++ [c]) acc := by
  induction corners with
  | nil => intro acc; exact fun x h => h
  | cons c rest ih =>
    intro acc x hx
    refine ih _ ?_
    by_cases hc : c ∈ acc <;> simp [hc, hx]

theorem corner_fold_mem (corners : List Point) :
    ∀ (acc : List Point) (c : Point), c ∈ corners →
      c ∈ corners.foldl (fun acc2 p => if p ∈ acc2 then acc2 else acc2 ++ [p]) acc := by
  induction corners with
  | nil => intro acc c hc; simp at hc
  | cons d rest ih =>
    intro acc c hc
    rcases List.mem_cons.mp hc with rfl | hc'
    · refine corner_fold_sub rest _ ?_
      by_cases hd : c ∈ acc <;> simp [hd]
    · exact ih _ c hc'

theorem corner_fold_nodup (corners : List Point) :
    ∀ acc : List Point, acc.Nodup →
      (corners.foldl (fun acc2 p => if p ∈ acc2 then acc2 else acc2 ++ [p]) acc).Nodup := by
  induction corners with
  | nil => intro acc h; exact h
  | cons d rest ih =>
    intro acc h
    refine ih _ ?_
    by_cases hd : d ∈ acc
    · simpa [hd]
    · simp only [hd, if_false]
      exact List.Nodup.append h (List.nodup_singleton d) (by simpa using hd)

/-- The outer fold of `collectCorners` only extends its accumulator. -/
theorem collect_outer_sub (hashes : List Cell) :
    ∀ acc : List Point,
      acc ⊆ hashes.foldl
        (fun acc h => (cornersOf (bounds h)).foldl
          (fun acc2 c => if c ∈ acc2 then acc2 else acc2 ++ [c]) acc) acc := by
  induction hashes with
  | nil => intro acc x h; exact h
  | cons h rest ih =>
    intro acc x hx
    exact ih _ (corner_fold_sub _ _ hx)

theorem collect_outer_nodup (hashes : List Cell) :
    ∀ acc : List Point, acc.Nodup →
      (hashes.foldl
        (fun acc h => (cornersOf (bounds h)).foldl
          (fun acc2 c => if c ∈ acc2 then acc2 else acc2 ++ [c]) acc) acc).Nodup := by
  induction hashes with
  | nil => intro acc h; exact h
  | cons h rest ih =>
    intro acc hn
    exact ih _ (corner_fold_nodup _ _ hn)

/-- A non-empty input always collects at least the four distinct corners of
its first cell, so the `points.length < 3` early return never fires. -/
theorem collectCorners_length (h0 : Cell) (rest : List Cell) :
    4 ≤ (collectCorners (h0 :: rest)).length := by
  unfold collectCorners
  have hsub : cornersOf (bounds h0) ⊆
      (h0 :: rest).foldl
        (fun acc h => (cornersOf (bounds h)).foldl
          (fun acc2 c => if c ∈ acc2 then acc2 else acc2 ++ [c]) acc) [] := by
    intro c hc
    simp only [List.foldl_cons]
    exact collect_outer_sub rest _ (corner_fold_mem _ [] c hc)
  have hnd : (cornersOf (bounds h0)).Nodup :=
    cornersOf_nodup _ (bounds_lt h0).1 (bounds_lt h0).2
  have hsp := (List.subperm_of_subset hnd hsub).length_le
  simpa [cornersOf] using hsp

/-- C8: for every non-empty list of cells, `geohashesToConvexHull` raises the
antimeridian error exactly when the collected corner longitudes span more
than 180 degrees, and returns a hull normally whenever they do not. -/
theorem hull_antimeridian_guard (hashes : List Cell) (hne : hashes ≠ []) :
    (geohashesToConvexHull hashes = .error .antimeridianHull ↔
      lonSpanExceeds180 (collectCorners hashes) = true) ∧
    (lonSpanExceeds180 (collectCorners hashes) = false →
      ∃ pts, geohashesToConvexHull hashes = .ok pts) := by
  match hashes, hne with
  | h0 :: rest, _ =>
    have hlen : ¬ (collectCorners (h0 :: rest)).length < 3 := by
      have := collectCorners_length h0 rest
      omega
    unfold geohashesToConvexHull
    simp only [hlen, if_false, reduceCtorEq, if_neg (List.cons_ne_nil h0 rest)]
    by_cases hspan : lonSpanExceeds180 (collectCorners (h0 :: rest)) = true
    · simp [hspan]
    · rw [Bool.not_eq_true] at hspan
      simp [hspan]

/-- C8 (witness): the cells `0` and `z` sit at opposite ends of the world, so
their corner longitudes span 360 degrees and the hull call is refused. -/
theorem hull_antimeridian_guard_witness :
    geohashesToConvexHull [['0'], ['z']] = .error .antimeridianHull :=
  (hull_antimeridian_guard [['0'], ['z']] (by decide)).1.mpr (by decide)

/-! ### The budget invariant (C1) and the sizing error (C3) -/

theorem attemptLoop_some_le (polygon : List Point) (holes : List (List Point))
    (minP : ℤ) (t mc bail : ℚ) :
    ∀ (n : Nat) (mp : ℤ) (r : List Cell),
      attemptLoop polygon holes minP t mc bail n mp = some r →
      (r.length : ℚ) ≤ mc := by
  intro n
  induction n with
  | zero => intro mp r h; simp [attemptLoop] at h
  | succ n ih =>
    intro mp r h
    rw [attemptLoop] at h
    cases hcg : computeGeohashes polygon holes minP mp t (some bail) with
    | none => rw [hcg] at h; exact ih _ _ h
    | some r' =>
      rw [hcg] at h
      dsimp only at h
      by_cases hle : (r'.length : ℚ) ≤ mc
      · rw [if_pos hle] at h
        cases h
        exact hle
      · rw [if_neg hle] at h
        exact ih _ _ h

theorem multiAttemptLoop_some_le (parts : List NormalisedPolygon)
    (minP : ℤ) (t mc bail : ℚ) :
    ∀ (n : Nat) (mp : ℤ) (r : List Cell),
      multiAttemptLoop parts minP t mc bail n mp = some r →
      (r.length : ℚ) ≤ mc := by
  intro n
  induction n with
  | zero => intro mp r h; simp [multiAttemptLoop] at h
  | succ n ih =>
    intro mp r h
    rw [multiAttemptLoop] at h
    cases hph : partsHashes parts minP mp t bail with
    | none => rw [hph] at h; exact ih _ _ h
    | some all =>
      rw [hph] at h
      dsimp only at h
      by_cases hle : ((deduplicateGeohashes all false).length : ℚ) ≤ mc
      · rw [if_pos hle] at h
        cases h
        exact hle
      · rw [if_neg hle] at h
        exact ih _ _ h

theorem singlePath_ok_le (np : NormalisedPolygon) (o : CoverageOptions)
    (r : List Cell) (h : singlePath np o = .ok r) :
    (r.length : ℚ) ≤ effMaxCells o := by
  unfold singlePath at h
  dsimp only at h
  split at h
  · cases h
  · split at h
    next r' ha =>
      cases h
      exact attemptLoop_some_le _ _ _ _ _ _ _ _ _ ha
    next ha =>
      split at h
      next hf =>
        cases h
        exact hf
      next hf => cases h

theorem multiPath_ok_le (coords : List (List (List Point))) (o : CoverageOptions)
    (r : List Cell) (hmc : 1 ≤ effMaxCells o) (h : multiPath coords o = .ok r) :
    (r.length : ℚ) ≤ effMaxCells o := by
  unfold multiPath at h
  dsimp only at h
  split at h
  · cases h
    simp
    linarith
  · split at h
    · cases h
    next parts hm =>
      split at h
      · cases h
      · split at h
        next r' ha =>
          cases h
          exact multiAttemptLoop_some_le _ _ _ _ _ _ _ _ ha
        next ha =>
          split at h
          next hf =>
            cases h
            exact hf
          next hf => cases h

/-- C1: the budget invariant.  Whenever `polygonToGeohashes` returns normally
(for any polygon input and any options), the returned array has at most the
effective `maxCells` entries: every return site is guarded by that very
comparison. -/
theorem budget_invariant (input : PolygonInput) (o : CoverageOptions)
    (r : List Cell) (h : polygonToGeohashes input o = .ok r) :
    (r.length : ℚ) ≤ effMaxCells o := by
  unfold polygonToGeohashes at h
  by_cases hmc : effMaxCells o < 1
  · rw [if_pos hmc] at h; cases h
  · rw [if_neg hmc] at h
    push_neg at hmc
    cases input with
    | multi coords => exact multiPath_ok_le _ _ _ hmc h
    | ring v =>
      simp only [normalisePolygonInput] at h
      exact singlePath_ok_le _ _ _ h
    | poly coords =>
      simp only [normalisePolygonInput] at h
      cases hn : normalisePolyCoords coords with
      | error e => rw [hn] at h; cases h
      | ok np =>
        rw [hn] at h
        exact singlePath_ok_le _ _ _ h

/-- C1 (witness): the triangle cover returns two cells, within the budget. -/
theorem budget_invariant_witness :
    polygonToGeohashes (.ring triPoly) triOpts = .ok [['e'], ['s']] ∧
    (([['e'], ['s']] : List Cell).length : ℚ) ≤ effMaxCells triOpts :=
  ⟨by decide, budget_invariant (.ring triPoly) triOpts [['e'], ['s']] (by decide)⟩

theorem attemptLoop_none (polygon : List Point) (holes : List (List Point))
    (minP : ℤ) (t mc bail : ℚ) :
    ∀ (n : Nat) (mp : ℤ),
      (∀ mp' : ℤ, mp - n < mp' → mp' ≤ mp → ∀ r,
        computeGeohashes polygon holes minP mp' t (some bail) = some r →
        mc < (r.length : ℚ)) →
      attemptLoop polygon holes minP t mc bail n mp = none := by
  intro n
  induction n with
  | zero => intro mp h; simp [attemptLoop]
  | succ n ih =>
    intro mp h
    rw [attemptLoop]
    cases hcg : computeGeohashes polygon holes minP mp t (some bail) with
    | none =>
      refine ih (mp - 1) ?_
      intro mp' h1 h2 r hr
      refine h mp' (by push_cast at h1 ⊢; omega) (by omega) r hr
    | some r =>
      have hgt := h mp (by push_cast; omega) le_rfl r hcg
      dsimp only
      rw [if_neg (not_le.mpr hgt)]
      refine ih (mp - 1) ?_
      intro mp' h1 h2 r' hr'
      refine h mp' (by push_cast at h1 ⊢; omega) (by omega) r' hr'

theorem effMinP_le_effMaxP (o : CoverageOptions) : effMinP o ≤ effMaxP o :=
  le_max_left _ _

/-- C1 / C3 helper: `effMinP` is at least 1 by clamping. -/
theorem one_le_effMinP (o : CoverageOptions) : 1 ≤ effMinP o :=
  le_max_left _ _

/-- C3: the last-resort pass and the sizing error.  For any non-MultiPolygon
input that normalises and validates, if no retry attempt (from
`effMaxP` down to `effMinP`, with the bailout `4 * maxCells`) yields a
compacted result within `maxCells`, then the call equals the outcome of one
final pass at `minPrecision` with `coverageThreshold = 0`: that pass's cells
are returned if they fit, and otherwise the call throws the sizing error
carrying exactly that pass's cell count and `minPrecision` — no partial
result is returned. -/
theorem sizing_last_resort (input : PolygonInput) (o : CoverageOptions)
    (np : NormalisedPolygon)
    (hm : input.isMulti = false)
    (hn : normalisePolygonInput input = .ok np)
    (hmc : 1 ≤ effMaxCells o)
    (hv : validateOuter np.outer = .ok ())
    (hfail : ∀ mp : ℤ, effMinP o ≤ mp → mp ≤ effMaxP o → ∀ r,
        computeGeohashes np.outer np.holes (effMinP o) mp (effThreshold o)
          (some (effMaxCells o * 4)) = some r →
        effMaxCells o < (r.length : ℚ)) :
    polygonToGeohashes input o =
      (if (((computeGeohashes np.outer np.holes (effMinP o) (effMinP o) 0
              none).getD []).length : ℚ) ≤ effMaxCells o
       then .ok ((computeGeohashes np.outer np.holes (effMinP o) (effMinP o) 0
              none).getD [])
       else .error (.sizing ((computeGeohashes np.outer np.holes (effMinP o)
              (effMinP o) 0 none).getD []).length (effMinP o))) := by
  have hminmax := effMinP_le_effMaxP o
  have hloop : attemptLoop np.outer np.holes (effMinP o) (effThreshold o)
      (effMaxCells o) (effMaxCells o * 4) (effMaxP o - effMinP o + 1).toNat
      (effMaxP o) = none := by
    refine attemptLoop_none _ _ _ _ _ _ _ _ ?_
    intro mp' h1 h2 r hr
    refine hfail mp' ?_ h2 r hr
    rw [Int.toNat_of_nonneg (by omega)] at h1
    omega
  have hsingle : singlePath np o =
      (if (((computeGeohashes np.outer np.holes (effMinP o) (effMinP o) 0
              none).getD []).length : ℚ) ≤ effMaxCells o
       then .ok ((computeGeohashes np.outer np.holes (effMinP o) (effMinP o) 0
              none).getD [])
       else .error (.sizing ((computeGeohashes np.outer np.holes (effMinP o)
              (effMinP o) 0 none).getD []).length (effMinP o))) := by
    unfold singlePath
    dsimp only
    rw [hv]
    dsimp only
    rw [hloop]
  unfold polygonToGeohashes
  rw [if_neg (not_lt.mpr hmc)]
  cases input with
  | multi coords => simp [PolygonInput.isMulti] at hm
  | ring v =>
    simp only [normalisePolygonInput] at hn ⊢
    cases hn
    exact hsingle
  | poly coords =>
    simp only [normalisePolygonInput] at hn ⊢
    rw [hn]
    exact hsingle

/-- C3 (witness): the triangle needs 2 cells at precision 1 but `maxCells`
is 1, so every attempt fails and the call throws the sizing error reporting
the minimal feasible count 2 at precision 1. -/
theorem sizing_last_resort_witness :
    polygonToGeohashes (.ring triPoly) sizingOpts = .error (.sizing 2 1) := by
  have h := sizing_last_resort (.ring triPoly) sizingOpts
    (NormalisedPolygon.mk triPoly []) (by decide) rfl (by norm_num [effMaxCells, sizingOpts]) (by decide) ?hfail
  · exact h.trans (by decide)
  case hfail =>
    intro mp h1 h2 r hr
    have hmp : mp = 1 := by
      have e1 : effMinP sizingOpts = 1 := by decide
      have e2 : effMaxP sizingOpts = 1 := by decide
      rw [e1] at h1
      rw [e2] at h2
      omega
    subst hmp
    have hval : computeGeohashes triPoly [] (effMinP sizingOpts) 1
        (effThreshold sizingOpts) (some (effMaxCells sizingOpts * 4)) =
        some [['e'], ['s']] := by decide
    rw [hval] at hr
    cases hr
    norm_num [effMaxCells, sizingOpts]

/-- C6 (counterexample): with `minPrecision = 1`, `maxPrecision = 2` and
`maxCells = 30` fixed on `rectPoly`, the call with `mergeThreshold = 0`
returns 21 cells (its lossy 24-of-32 merge makes the precision-2 attempt
fit) while the call with `mergeThreshold = 1` returns only 6 cells (its
exact merge does not fit at precision 2, so it steps down to precision 1) —
refuting `|result at 0| ≤ |result at 1|`. -/
theorem threshold_monotonicity_counterexample :
    (polygonToGeohashes (.ring rectPoly) monoOpts0).map List.length = .ok 21 ∧
    (polygonToGeohashes (.ring rectPoly) monoOpts1).map List.length = .ok 6 ∧
    ¬ (21 ≤ 6) :=
  ⟨by decide, by decide, by decide⟩




/-! ### Generic fold helpers -/

theorem foldl_invariant {α β : Type} (f : α → β → α) (I : α → Prop) :
    ∀ (xs : List β) (init : α), I init → (∀ a, ∀ b ∈ xs, I a → I (f a b)) →
      I (xs.foldl f init) := by
  intro xs
  induction xs with
  | nil => intro init h _; exact h
  | cons y ys ih =>
    intro init h hstep
    exact ih (f init y) (hstep init y (by simp) h)
      fun a b hb ha => hstep a b (List.mem_cons_of_mem y hb) ha

theorem foldl_establish {α β : Type} (f : α → β → α) (I P : α → Prop) :
    ∀ (xs : List β) (x : β) (init : α), x ∈ xs → I init →
      (∀ a, ∀ b ∈ xs, I a → I (f a b)) →
      (∀ a, I a → P (f a x)) →
      (∀ a, ∀ b ∈ xs, I a → P a → P (f a b)) →
      P (xs.foldl f init) := by
  intro xs
  induction xs with
  | nil => intro x init hx; exact absurd hx (List.not_mem_nil x)
  | cons y ys ih =>
    intro x init hx hI0 hI hest hP
    rcases List.mem_cons.mp hx with rfl | hx'
    · have hIP : I (f init x) ∧ P (f init x) :=
        ⟨hI init x (by simp) hI0, hest init hI0⟩
      have := foldl_invariant f (fun a => I a ∧ P a) ys (f init x) hIP
        fun a b hb hab => ⟨hI a b (List.mem_cons_of_mem _ hb) hab.1,
          hP a b (List.mem_cons_of_mem _ hb) hab.1 hab.2⟩
      exact this.2
    · exact ih x (f init y) hx' (hI init y (by simp) hI0)
        (fun a b hb ha => hI a b (List.mem_cons_of_mem _ hb) ha)
        hest
        (fun a b hb ha hp => hP a b (List.mem_cons_of_mem _ hb) ha hp)

theorem foldl_fix {α β : Type} (f : α → β → α) :
    ∀ (xs : List β) (init : α), (∀ b ∈ xs, ∀ a, f a b = a) →
      xs.foldl f init = init := by
  intro xs
  induction xs with
  | nil => intro init _; rfl
  | cons y ys ih =>
    intro init h
    rw [List.foldl_cons, h y (by simp) init]
    exact ih init fun b hb a => h b (List.mem_cons_of_mem y hb) a

/-! ### `setAdd` / `setOfList` lemmas -/

theorem mem_setAdd {l : List Cell} {x y : Cell} :
    y ∈ setAdd l x ↔ y ∈ l ∨ y = x := by
  unfold setAdd
  by_cases hx : x ∈ l
  · rw [if_pos hx]
    exact ⟨.inl, fun h => h.elim id fun e => e ▸ hx⟩
  · rw [if_neg hx]
    simp

theorem nodup_setAdd {l : List Cell} {x : Cell} (h : l.Nodup) :
    (setAdd l x).Nodup := by
  unfold setAdd
  by_cases hx : x ∈ l
  · rwa [if_pos hx]
  · rw [if_neg hx]
    simp [List.nodup_append, h, hx]

theorem foldl_setAdd_nodup (l : List Cell) :
    ∀ init : List Cell, init.Nodup → (l.foldl setAdd init).Nodup := by
  induction l with
  | nil => intro init h; exact h
  | cons x xs ih => intro init h; exact ih (setAdd init x) (nodup_setAdd h)

theorem setOfList_nodup (l : List Cell) : (setOfList l).Nodup :=
  foldl_setAdd_nodup l [] List.nodup_nil

theorem mem_foldl_setAdd (l : List Cell) :
    ∀ (init : List Cell) (y : Cell),
      y ∈ l.foldl setAdd init ↔ y ∈ init ∨ y ∈ l := by
  induction l with
  | nil => intro init y; simp
  | cons x xs ih =>
    intro init y
    rw [List.foldl_cons, ih (setAdd init x) y, mem_setAdd]
    simp
    tauto

theorem mem_setOfList {l : List Cell} {y : Cell} : y ∈ setOfList l ↔ y ∈ l := by
  unfold setOfList
  rw [mem_foldl_setAdd]
  simp

theorem setOfList_eq_self {l : List Cell} (h : l.Nodup) : setOfList l = l := by
  suffices H : ∀ (l : List Cell) (init : List Cell), (init ++ l).Nodup →
      l.foldl setAdd init = init ++ l by
    simpa using H l [] (by simpa using h)
  intro l
  induction l with
  | nil => intro init _; simp
  | cons x xs ih =>
    intro init hinit
    have hx : x ∉ init := by
      intro hmem
      have := List.disjoint_of_nodup_append hinit
      exact this hmem (by simp)
    rw [List.foldl_cons]
    have hset : setAdd init x = init ++ [x] := by rw [setAdd, if_neg hx]
    rw [hset, ih (init ++ [x]) (by simpa using hinit)]
    simp

/-! ### Erase-fold lemmas -/

theorem foldl_erase_subset (cs : List Cell) :
    ∀ acc : List Cell, cs.foldl List.erase acc ⊆ acc := by
  induction cs with
  | nil => intro acc; exact fun _ h => h
  | cons c cs ih =>
    intro acc
    exact fun x hx => List.erase_subset c acc (ih (acc.erase c) hx)

theorem foldl_erase_nodup (cs : List Cell) :
    ∀ acc : List Cell, acc.Nodup → (cs.foldl List.erase acc).Nodup := by
  induction cs with
  | nil => intro acc h; exact h
  | cons c cs ih => intro acc h; exact ih (acc.erase c) (h.erase c)

theorem not_mem_foldl_erase (cs : List Cell) :
    ∀ acc : List Cell, acc.Nodup → ∀ x ∈ cs, x ∉ cs.foldl List.erase acc := by
  induction cs with
  | nil => intro acc _ x hx; exact absurd hx (List.not_mem_nil x)
  | cons c cs ih =>
    intro acc hacc x hx
    rcases List.mem_cons.mp hx with rfl | hx'
    · intro hmem
      have hsub := foldl_erase_subset cs (acc.erase x)
      have : x ∈ acc.erase x := hsub hmem
      rw [List.Nodup.mem_erase_iff hacc] at this
      exact this.1 rfl
    · exact ih (acc.erase c) (hacc.erase c) x hx'

/-! ### `children` lemmas -/

theorem base32_nodup : BASE32.Nodup := by decide

theorem mem_children_iff {c q : Cell} :
    c ∈ children q ↔ ∃ ch ∈ BASE32, c = q ++ [ch] := by
  unfold children
  rw [List.mem_map]
  constructor
  · rintro ⟨ch, hch, rfl⟩; exact ⟨ch, hch, rfl⟩
  · rintro ⟨ch, hch, rfl⟩; exact ⟨ch, hch, rfl⟩

theorem children_nodup (q : Cell) : (children q).Nodup := by
  refine List.Nodup.map ?_ base32_nodup
  intro a b hab
  simpa using hab

theorem dropLast_of_mem_children {c q : Cell} (h : c ∈ children q) :
    c.dropLast = q := by
  rcases mem_children_iff.mp h with ⟨ch, _, rfl⟩
  exact List.dropLast_concat

theorem valid_of_mem_children {c q : Cell} (hq : ValidCell q)
    (h : c ∈ children q) : ValidCell c := by
  rcases mem_children_iff.mp h with ⟨ch, hch, rfl⟩
  intro x hx
  rcases List.mem_append.mp hx with hx' | hx'
  · exact hq x hx'
  · rwa [List.mem_singleton.mp hx']

theorem self_not_mem_children (q : Cell) : q ∉ children q := by
  intro h
  have := mem_children_length h
  omega

theorem mem_children_of_parent {h q : Cell} (hval : ValidCell h) (hne : h ≠ [])
    (hd : h.dropLast = q) : h ∈ children q := by
  refine mem_children_iff.mpr ⟨h.getLast hne, hval _ (List.getLast_mem hne), ?_⟩
  rw [← hd, List.dropLast_append_getLast hne]

theorem valid_dropLast {h : Cell} (hval : ValidCell h) : ValidCell h.dropLast := by
  intro x hx
  exact hval x (List.dropLast_subset h hx)

/-! ### Take / strict-ancestor helpers -/

theorem take_dropLast_eq (h : Cell) (i : Nat) (hi : i + 1 ≤ h.length) :
    h.dropLast.take i = h.take i := by
  rw [List.dropLast_eq_take, List.take_take]
  congr 1
  omega

theorem strictAncestor_of_dropLast {a q h : Cell} (hq : q = h.dropLast)
    (hne : h ≠ []) (hsa : StrictAncestor a q) : StrictAncestor a h := by
  obtain ⟨hlen, htake⟩ := hsa
  have hql : q.length = h.length - 1 := by rw [hq, List.length_dropLast]
  have hhl : 1 ≤ h.length := List.length_pos.mpr hne
  refine ⟨by omega, ?_⟩
  rw [← take_dropLast_eq h a.length (by omega), ← hq, htake]

theorem take_succ_mem_children {b q : Cell} (hvb : ValidCell b)
    (hq : b.take q.length = q) (hlt : q.length + 1 ≤ b.length) :
    b.take (q.length + 1) ∈ children q := by
  have hidx : q.length < b.length := by omega
  refine mem_children_iff.mpr ⟨b[q.length], hvb _ (List.getElem_mem hidx), ?_⟩
  rw [← List.take_concat_get b q.length hidx, hq, List.concat_eq_append]

theorem strictAncestor_take {b : Cell} (n : Nat) (h1 : 1 ≤ n)
    (h2 : n < b.length) : StrictAncestor (b.take n) b := by
  constructor
  · rw [List.length_take]; omega
  · rw [List.length_take]
    congr 1
    omega

theorem take_ne_nil {b : Cell} (n : Nat) (h1 : 1 ≤ n) (h2 : 1 ≤ b.length) :
    b.take n ≠ [] := by
  have hp : 0 < (b.take n).length := by
    rw [List.length_take]
    omega
  exact List.length_pos.mp hp

theorem strictAncestor_irrefl (a : Cell) : ¬ StrictAncestor a a := by
  intro h
  exact absurd h.1 (lt_irrefl _)

/-! ### `bumpCount` / `alookup` / `parentCounts` lemmas -/

theorem alookup_bumpCount_self (m : List (Cell × Nat)) (q : Cell) :
    alookup (bumpCount m q) q = alookup m q + 1 := by
  induction m with
  | nil => simp [bumpCount, alookup]
  | cons kn rest ih =>
    obtain ⟨k, n⟩ := kn
    by_cases hk : k = q
    · subst hk
      simp [bumpCount, alookup]
    · simp [bumpCount, alookup, hk, ih]
theorem alookup_bumpCount_ne (m : List (Cell × Nat)) (q q' : Cell)
    (h : q' ≠ q) : alookup (bumpCount m q) q' = alookup m q' := by
  have h2 : q ≠ q' := Ne.symm h
  induction m with
  | nil => simp [bumpCount, alookup, h2]
  | cons kn rest ih =>
    obtain ⟨k, n⟩ := kn
    by_cases hk : k = q
    · subst hk
      have h3 : k ≠ q' := h2
      simp [bumpCount, alookup, h3]
    · simp [bumpCount, alookup, hk, ih]

theorem mem_keys_iff {m : List (Cell × Nat)} {k : Cell} :
    k ∈ m.map Prod.fst ↔ ∃ c, (k, c) ∈ m := by
  rw [List.mem_map]
  constructor
  · rintro ⟨⟨k', c⟩, hm, rfl⟩
    exact ⟨c, hm⟩
  · rintro ⟨c, hm⟩
    exact ⟨(k, c), hm, rfl⟩

theorem keys_bumpCount_subset (m : List (Cell × Nat)) (q : Cell) :
    ∀ k c, (k, c) ∈ bumpCount m q → k = q ∨ ∃ c', (k, c') ∈ m := by
  induction m with
  | nil =>
    intro k c hk
    simp [bumpCount] at hk
    exact .inl hk.1
  | cons kn rest ih =>
    obtain ⟨k0, n⟩ := kn
    intro k c hk
    by_cases hk0 : k0 = q
    · subst hk0
      rw [show bumpCount ((k0, n) :: rest) k0 = (k0, n + 1) :: rest from by
        simp [bumpCount]] at hk
      rcases List.mem_cons.mp hk with heq | hmem
      · injection heq with h1 h2
        exact .inl h1
      · exact .inr ⟨c, List.mem_cons_of_mem _ hmem⟩
    · rw [show bumpCount ((k0, n) :: rest) q = (k0, n) :: bumpCount rest q from by
        simp [bumpCount, hk0]] at hk
      rcases List.mem_cons.mp hk with heq | hmem
      · injection heq with h1 h2
        subst h1; subst h2
        exact .inr ⟨c, List.mem_cons_self _ _⟩
      · rcases ih k c hmem with h | ⟨c', hc'⟩
        · exact .inl h
        · exact .inr ⟨c', List.mem_cons_of_mem _ hc'⟩

theorem keys_nodup_bumpCount (m : List (Cell × Nat)) (q : Cell)
    (h : (m.map Prod.fst).Nodup) : ((bumpCount m q).map Prod.fst).Nodup := by
  induction m with
  | nil => simp [bumpCount]
  | cons kn rest ih =>
    obtain ⟨k0, n⟩ := kn
    rw [List.map_cons, List.nodup_cons] at h
    by_cases hk0 : k0 = q
    · subst hk0
      rw [show bumpCount ((k0, n) :: rest) k0 = (k0, n + 1) :: rest from by
        simp [bumpCount]]
      rw [List.map_cons, List.nodup_cons]
      exact h
    · rw [show bumpCount ((k0, n) :: rest) q = (k0, n) :: bumpCount rest q from by
        simp [bumpCount, hk0]]
      rw [List.map_cons, List.nodup_cons]
      refine ⟨?_, ih h.2⟩
      intro hmem
      rcases mem_keys_iff.mp hmem with ⟨c, hc⟩
      rcases keys_bumpCount_subset rest q k0 c hc with h' | ⟨c', hc'⟩
      · exact hk0 h'
      · exact h.1 (mem_keys_iff.mpr ⟨c', hc'⟩)

theorem alookup_eq_of_mem {m : List (Cell × Nat)} {k : Cell} {c : Nat}
    (hn : (m.map Prod.fst).Nodup) (h : (k, c) ∈ m) : alookup m k = c := by
  induction m with
  | nil => exact absurd h (List.not_mem_nil _)
  | cons kn rest ih =>
    obtain ⟨k0, n⟩ := kn
    rw [List.map_cons, List.nodup_cons] at hn
    rcases List.mem_cons.mp h with heq | hmem
    · injection heq with h1 h2
      subst h1; subst h2
      simp [alookup]
    · have hk0 : k0 ≠ k := by
        intro he
        subst he
        exact hn.1 (mem_keys_iff.mpr ⟨c, hmem⟩)
      simp only [alookup, if_neg hk0]
      exact ih hn.2 hmem

theorem mem_of_alookup_pos {m : List (Cell × Nat)} {q : Cell}
    (h : 0 < alookup m q) : (q, alookup m q) ∈ m := by
  induction m with
  | nil => simp [alookup] at h
  | cons kn rest ih =>
    obtain ⟨k0, n⟩ := kn
    by_cases hk : k0 = q
    · subst hk
      rw [show alookup ((k0, n) :: rest) k0 = n from by simp [alookup]]
      exact List.mem_cons_self _ _
    · rw [show alookup ((k0, n) :: rest) q = alookup rest q from by
        simp [alookup, hk]] at h ⊢
      exact List.mem_cons_of_mem _ (ih h)

theorem parentCounts_keys_nodup (p : Nat) (l : List Cell) :
    ((parentCounts p l).map Prod.fst).Nodup := by
  unfold parentCounts
  have hstep : ∀ (m : List (Cell × Nat)), ∀ b ∈ l, (m.map Prod.fst).Nodup →
      ((if b.length = p then bumpCount m b.dropLast else m).map Prod.fst).Nodup := by
    intro m h _ hm
    by_cases hl : h.length = p
    · simp only [if_pos hl]
      exact keys_nodup_bumpCount m h.dropLast hm
    · simpa only [if_neg hl]
  exact foldl_invariant _ (fun m => (m.map Prod.fst).Nodup) l [] (by simp) hstep

theorem grpCount_cons (p : Nat) (q : Cell) (h : Cell) (t : List Cell) :
    grpCount p q (h :: t) =
      (if h.length = p ∧ h.dropLast = q then 1 else 0) + grpCount p q t := by
  unfold grpCount
  by_cases h1 : h.length = p <;> by_cases h2 : h.dropLast = q <;>
    simp [List.filter_cons, h1, h2] <;> omega

theorem alookup_parentCounts (p : Nat) (l : List Cell) (q : Cell) :
    alookup (parentCounts p l) q = grpCount p q l := by
  unfold parentCounts
  suffices H : ∀ m : List (Cell × Nat),
      alookup (l.foldl (fun m h => if h.length = p then bumpCount m h.dropLast else m) m) q =
        alookup m q + grpCount p q l by
    simpa [alookup] using H []
  induction l with
  | nil => intro m; simp [grpCount, alookup]
  | cons h t ih =>
    intro m
    rw [List.foldl_cons, ih, grpCount_cons]
    by_cases h1 : h.length = p
    · by_cases h2 : h.dropLast = q
      · rw [if_pos h1, h2, alookup_bumpCount_self]
        simp [h1, h2]
        omega
      · rw [if_pos h1, alookup_bumpCount_ne m h.dropLast q (fun e => h2 e.symm)]
        simp [h1, h2]
    · rw [if_neg h1]
      simp [h1]

theorem parentCounts_key {p : Nat} {l : List Cell} {k : Cell} {c : Nat}
    (h : (k, c) ∈ parentCounts p l) : ∃ x ∈ l, x.length = p ∧ k = x.dropLast := by
  unfold parentCounts at h
  have H : ∀ m : List (Cell × Nat),
      (∀ k' c', (k', c') ∈ m → ∃ x ∈ l, x.length = p ∧ k' = x.dropLast) →
      ∀ k' c', (k', c') ∈
        (l.foldl (fun m h => if h.length = p then bumpCount m h.dropLast else m) m) →
        ∃ x ∈ l, x.length = p ∧ k' = x.dropLast := by
    have gen : ∀ (sub : List Cell), (∀ x ∈ sub, x ∈ l) →
        ∀ m : List (Cell × Nat),
        (∀ k' c', (k', c') ∈ m → ∃ x ∈ l, x.length = p ∧ k' = x.dropLast) →
        ∀ k' c', (k', c') ∈
          (sub.foldl (fun m h => if h.length = p then bumpCount m h.dropLast else m) m) →
          ∃ x ∈ l, x.length = p ∧ k' = x.dropLast := by
      intro sub
      induction sub with
      | nil => intro _ m hm k' c' hk'; exact hm k' c' hk'
      | cons h t iht =>
        intro hsub m hm k' c' hk'
        rw [List.foldl_cons] at hk'
        refine iht (fun x hx => hsub x (List.mem_cons_of_mem h hx)) _ ?_ k' c' hk'
        intro k2 c2 hk2
        by_cases h1 : h.length = p
        · rw [if_pos h1] at hk2
          rcases keys_bumpCount_subset m h.dropLast k2 c2 hk2 with rfl | ⟨c3, hc3⟩
          · exact ⟨h, hsub h (List.mem_cons_self h t), h1, rfl⟩
          · exact hm k2 c3 hc3
        · rw [if_neg h1] at hk2
          exact hm k2 c2 hk2
    exact gen l (fun x hx => hx)
  exact H [] (by simp) k c h

theorem parentCounts_val {p : Nat} {l : List Cell} {k : Cell} {c : Nat}
    (hk : (k, c) ∈ parentCounts p l) : c = grpCount p k l := by
  have := alookup_eq_of_mem (parentCounts_keys_nodup p l) hk
  rw [← this, alookup_parentCounts]

theorem grpCount_mem_children {p : Nat} {q : Cell} {l : List Cell}
    (hv : AllValid l) (hq : q.length + 1 = p) :
    ∀ x ∈ l.filter fun h => decide (h.length = p) && decide (h.dropLast = q),
      x ∈ children q := by
  intro x hx
  rw [List.mem_filter] at hx
  obtain ⟨hxl, hpred⟩ := hx
  simp only [Bool.and_eq_true, decide_eq_true_eq] at hpred
  refine mem_children_of_parent (hv x hxl) ?_ hpred.2
  intro he
  rw [he] at hpred
  simp at hpred
  omega

theorem children_sub_of_grpCount {p : Nat} {q : Cell} {l : List Cell}
    (hn : l.Nodup) (hv : AllValid l) (hq : q.length + 1 = p)
    (h32 : 32 ≤ grpCount p q l) : ∀ c ∈ children q, c ∈ l := by
  set F := l.filter fun h => decide (h.length = p) && decide (h.dropLast = q) with hF
  have hsub : F ⊆ children q := fun x hx => grpCount_mem_children hv hq x hx
  have hnd : F.Nodup := hn.filter _
  have hsp : F.Subperm (children q) := List.subperm_of_subset hnd hsub
  have hperm : F.Perm (children q) := by
    refine hsp.perm_of_length_le ?_
    rw [children_count]
    exact h32
  intro c hc
  have : c ∈ F := hperm.mem_iff.mpr hc
  rw [hF, List.mem_filter] at this
  exact this.1

theorem grpCount_of_children_sub {p : Nat} {q : Cell} {l : List Cell}
    (hq : q.length + 1 = p) (hsub : ∀ c ∈ children q, c ∈ l) :
    32 ≤ grpCount p q l := by
  set F := l.filter fun h => decide (h.length = p) && decide (h.dropLast = q) with hF
  have hsub2 : children q ⊆ F := by
    intro c hc
    rw [hF, List.mem_filter]
    refine ⟨hsub c hc, ?_⟩
    simp only [Bool.and_eq_true, decide_eq_true_eq]
    exact ⟨by rw [mem_children_length hc, hq], dropLast_of_mem_children hc⟩
  have hsp : (children q).Subperm F := List.subperm_of_subset (children_nodup q) hsub2
  have := hsp.length_le
  rw [children_count] at this
  exact this

theorem applyMerges_fix {ms : ℤ} {counts : List (Cell × Nat)} {l : List Cell}
    (h : ∀ qc ∈ counts, ¬ ms ≤ (qc.2 : ℤ)) : applyMerges ms counts l = l := by
  unfold applyMerges
  refine foldl_fix _ counts l ?_
  intro qc hqc a
  rw [if_neg (h qc hqc)]

theorem mergeFire_inv (ms : ℤ) (p : Nat) (l : List Cell)
    (h32 : 32 ≤ ms) (hp : 2 ≤ p)
    (hl : l.Nodup) (hv : AllValid l) (ha : NEAncFree l)
    (acc : List Cell) (q : Cell) (c : Nat)
    (hqc : (q, c) ∈ parentCounts p l) (hfire : ms ≤ (c : ℤ))
    (hacc : MergeInv p l acc) :
    MergeInv p l (setAdd ((children q).foldl List.erase acc) q) := by
  obtain ⟨hnd, hval, hne, hmem⟩ := hacc
  obtain ⟨x0, hx0l, hx0len, hx0q⟩ := parentCounts_key hqc
  have hx0ne : x0 ≠ [] := by
    intro he
    rw [he] at hx0len
    simp at hx0len
    omega
  have hqlen : q.length + 1 = p := by
    rw [hx0q, List.length_dropLast]
    omega
  have hqval : ValidCell q := by
    rw [hx0q]
    exact valid_dropLast (hv x0 hx0l)
  have hcnt : c = grpCount p q l := parentCounts_val hqc
  have hsub : ∀ ch ∈ children q, ch ∈ l := by
    refine children_sub_of_grpCount hl hv hqlen ?_
    have h1 : (32 : ℤ) ≤ (c : ℤ) := le_trans h32 hfire
    rw [hcnt] at h1
    exact_mod_cast h1
  set acc2 := (children q).foldl List.erase acc with hacc2
  have hnd2 : acc2.Nodup := foldl_erase_nodup _ acc hnd
  have hsub2 : acc2 ⊆ acc := foldl_erase_subset _ acc
  have hgone : ∀ ch ∈ children q, ch ∉ acc2 := not_mem_foldl_erase _ acc hnd
  refine ⟨nodup_setAdd hnd2, ?_, ?_, ?_⟩
  · intro y hy
    rcases mem_setAdd.mp hy with hy' | rfl
    · exact hval y (hsub2 hy')
    · exact hqval
  · intro a hamem b hbmem hane hsa
    obtain ⟨hsalen, hsatake⟩ := hsa
    rcases mem_setAdd.mp hamem with ha2 | rfl
    · rcases mem_setAdd.mp hbmem with hb2 | rfl
      · exact hne a (hsub2 ha2) b (hsub2 hb2) hane ⟨hsalen, hsatake⟩
      · have hainl : a ∈ l := by
          rcases hmem a (hsub2 ha2) with h | h
          · exact h
          · exfalso
            omega
        have hsax0 : StrictAncestor a x0 :=
          strictAncestor_of_dropLast hx0q hx0ne ⟨hsalen, hsatake⟩
        exact ha a hainl x0 hx0l hane hsax0
    · rcases mem_setAdd.mp hbmem with hb2 | rfl
      · by_cases hbp : b.length = p
        · have hbv : ValidCell b := hval b (hsub2 hb2)
          have hbne : b ≠ [] := by
            intro he
            rw [he] at hbp
            simp at hbp
            omega
          have hbch : b ∈ children a := by
            refine mem_children_of_parent hbv hbne ?_
            rw [List.dropLast_eq_take]
            have he : b.length - 1 = a.length := by omega
            rw [he]
            exact hsatake
          exact hgone b hbch hb2
        · have hbgt : p < b.length := by omega
          have hbl : b ∈ l := by
            rcases hmem b (hsub2 hb2) with h | h
            · exact h
            · exfalso
              omega
          have hbv : ValidCell b := hv b hbl
          have htc : b.take (a.length + 1) ∈ children a :=
            take_succ_mem_children hbv hsatake (by omega)
          have htl : b.take (a.length + 1) ∈ l := hsub _ htc
          have hsa2 : StrictAncestor (b.take (a.length + 1)) b :=
            strictAncestor_take (a.length + 1) (by omega) (by omega)
          have htne : b.take (a.length + 1) ≠ [] :=
            take_ne_nil _ (by omega) (by omega)
          exact ha _ htl b hbl htne hsa2
      · exact strictAncestor_irrefl b ⟨hsalen, hsatake⟩
  · intro y hy
    rcases mem_setAdd.mp hy with hy' | rfl
    · exact hmem y (hsub2 hy')
    · exact .inr hqlen

theorem mergeLevel_main (ms : ℤ) (p : Nat) (l : List Cell)
    (h32 : 32 ≤ ms) (hp : 2 ≤ p)
    (hl : l.Nodup) (hv : AllValid l) (ha : NEAncFree l) :
    MergeInv p l (mergeLevel ms p l) ∧
    (ms = 32 → ∀ q : Cell, q.length + 1 = p →
      ¬ ∀ ch ∈ children q, ch ∈ mergeLevel ms p l) := by
  have hI0 : MergeInv p l l := ⟨hl, hv, ha, fun x hx => .inl hx⟩
  have hstep : ∀ acc, ∀ qc ∈ parentCounts p l, MergeInv p l acc →
      MergeInv p l (if ms ≤ (qc.2 : ℤ) then
        setAdd ((children qc.1).foldl List.erase acc) qc.1 else acc) := by
    intro acc qc hqc hacc
    obtain ⟨q, c⟩ := qc
    by_cases hfire : ms ≤ ((q, c).2 : ℤ)
    · rw [if_pos hfire]
      exact mergeFire_inv ms p l h32 hp hl hv ha acc q c hqc hfire hacc
    · rwa [if_neg hfire]
  have hInv : MergeInv p l (mergeLevel ms p l) := by
    unfold mergeLevel applyMerges
    exact foldl_invariant _ (MergeInv p l) (parentCounts p l) l hI0 hstep
  refine ⟨hInv, ?_⟩
  intro hms q hq hall
  have hsubl : ∀ ch ∈ children q, ch ∈ l := by
    intro ch hch
    rcases hInv.2.2.2 ch (hall ch hch) with h | h
    · exact h
    · exfalso
      have := mem_children_length hch
      omega
  have hgc : 32 ≤ grpCount p q l := grpCount_of_children_sub hq hsubl
  have hmemc : (q, grpCount p q l) ∈ parentCounts p l := by
    have hpos : 0 < alookup (parentCounts p l) q := by
      rw [alookup_parentCounts]
      omega
    have h2 := mem_of_alookup_pos hpos
    rwa [alookup_parentCounts] at h2
  have hch0 : q ++ ['0'] ∈ children q := mem_children_iff.mpr ⟨'0', by decide, rfl⟩
  have hP : ∃ ch ∈ children q, ch ∉ mergeLevel ms p l := by
    unfold mergeLevel applyMerges
    refine foldl_establish _ (MergeInv p l)
      (fun acc => ∃ ch ∈ children q, ch ∉ acc)
      (parentCounts p l) (q, grpCount p q l) l hmemc hI0 hstep ?_ ?_
    · intro acc hacc
      have hfire : ms ≤ (((q, grpCount p q l).2 : Nat) : ℤ) := by
        rw [hms]
        exact_mod_cast hgc
      dsimp only
      rw [if_pos hfire]
      refine ⟨q ++ ['0'], hch0, ?_⟩
      intro hcon
      rcases mem_setAdd.mp hcon with h | h
      · exact not_mem_foldl_erase _ acc hacc.1 _ hch0 h
      · have := congrArg List.length h
        simp at this
    · intro acc qc hqc hacc hPacc
      obtain ⟨ch, hch, hnm⟩ := hPacc
      by_cases hfire : ms ≤ (qc.2 : ℤ)
      · rw [if_pos hfire]
        refine ⟨ch, hch, ?_⟩
        intro hcon
        rcases mem_setAdd.mp hcon with h | h
        · exact hnm (foldl_erase_subset _ acc h)
        · obtain ⟨x1, hx1l, hx1len, hx1q⟩ := parentCounts_key hqc
          have hqc1len : qc.1.length + 1 = p := by
            rw [hx1q, List.length_dropLast]
            omega
          have hchlen := mem_children_length hch
          rw [h] at hchlen
          omega
      · rw [if_neg hfire]
        exact ⟨ch, hch, hnm⟩
  rcases hP with ⟨ch, hch, hnm⟩
  exact hnm (hall ch hch)

theorem mergeDown_inv (minP ms : ℤ) (h32 : 32 ≤ ms) (hminP : 1 ≤ minP) :
    ∀ (p : Nat) (l : List Cell), l.Nodup → AllValid l → NEAncFree l →
      (∀ x ∈ l, x ≠ []) →
      (mergeDown minP ms p l).Nodup ∧ AllValid (mergeDown minP ms p l) ∧
      NEAncFree (mergeDown minP ms p l) ∧ ∀ x ∈ mergeDown minP ms p l, x ≠ [] := by
  intro p
  induction p with
  | zero =>
    intro l h1 h2 h3 h4
    rw [mergeDown]
    exact ⟨h1, h2, h3, h4⟩
  | succ p ih =>
    intro l h1 h2 h3 h4
    rw [mergeDown]
    by_cases hle : ((p : ℤ) + 1) ≤ minP
    · rw [if_pos hle]
      exact ⟨h1, h2, h3, h4⟩
    · rw [if_neg hle]
      have hp2 : 2 ≤ p + 1 := by omega
      obtain ⟨⟨hn, hv2, ha2, hm⟩, _⟩ :=
        mergeLevel_main ms (p + 1) l h32 hp2 h1 h2 h3
      have h4' : ∀ x ∈ mergeLevel ms (p + 1) l, x ≠ [] := by
        intro x hx
        rcases hm x hx with h | h
        · exact h4 x h
        · intro he
          rw [he] at h
          simp at h
          omega
      exact ih (mergeLevel ms (p + 1) l) hn hv2 ha2 h4'

theorem mergeDown_full :
    ∀ (p : Nat) (l : List Cell), l.Nodup → AllValid l → NEAncFree l →
      (∀ q : Cell, 1 ≤ q.length → p < q.length + 1 → ¬ ∀ ch ∈ children q, ch ∈ l) →
      (mergeDown 1 32 p l).Nodup ∧ AllValid (mergeDown 1 32 p l) ∧
      NEAncFree (mergeDown 1 32 p l) ∧ NoFull (mergeDown 1 32 p l) := by
  intro p
  induction p with
  | zero =>
    intro l h1 h2 h3 h4
    rw [mergeDown]
    exact ⟨h1, h2, h3, fun q hq => h4 q hq (by omega)⟩
  | succ p ih =>
    intro l h1 h2 h3 h4
    rw [mergeDown]
    by_cases hle : ((p : ℤ) + 1) ≤ 1
    · rw [if_pos hle]
      have hp0 : p = 0 := by omega
      subst hp0
      exact ⟨h1, h2, h3, fun q hq => h4 q hq (by omega)⟩
    · rw [if_neg hle]
      have hp2 : 2 ≤ p + 1 := by omega
      obtain ⟨⟨hn, hv2, ha2, hm⟩, hclear⟩ :=
        mergeLevel_main 32 (p + 1) l (le_refl 32) hp2 h1 h2 h3
      refine ih (mergeLevel 32 (p + 1) l) hn hv2 ha2 ?_
      intro q hq hlt hall
      by_cases hqp : q.length + 1 = p + 1
      · exact hclear rfl q hqp hall
      · refine h4 q hq (by omega) ?_
        intro ch hch
        rcases hm ch (hall ch hch) with h | h
        · exact h
        · exfalso
          have := mem_children_length hch
          omega

theorem mergeDown_fix :
    ∀ (p : Nat) (l : List Cell), l.Nodup → AllValid l → NoFull l →
      mergeDown 1 32 p l = l := by
  intro p
  induction p with
  | zero =>
    intro l _ _ _
    rw [mergeDown]
  | succ p ih =>
    intro l h1 h2 h3
    rw [mergeDown]
    by_cases hle : ((p : ℤ) + 1) ≤ 1
    · rw [if_pos hle]
    · rw [if_neg hle]
      have hfix : mergeLevel 32 (p + 1) l = l := by
        unfold mergeLevel
        refine applyMerges_fix ?_
        intro qc hqc hge
        obtain ⟨q, c⟩ := qc
        obtain ⟨x1, hx1l, hx1len, hx1q⟩ := parentCounts_key hqc
        have hqlen : q.length + 1 = p + 1 := by
          rw [hx1q, List.length_dropLast]
          omega
        have hcv : c = grpCount (p + 1) q l := parentCounts_val hqc
        have h32c : 32 ≤ grpCount (p + 1) q l := by
          rw [← hcv]
          exact_mod_cast hge
        exact h3 q (by omega) (children_sub_of_grpCount h1 h2 hqlen h32c)
      rw [hfix]
      exact ih l h1 h2 h3

/-! ### `maxLen` bounds -/

theorem foldl_maxLen_ge (l : List Cell) :
    ∀ init : Nat, init ≤ l.foldl (fun m x => max m x.length) init := by
  induction l with
  | nil => intro init; exact le_refl _
  | cons h t ih =>
    intro init
    exact le_trans (le_max_left init h.length) (ih (max init h.length))

theorem le_maxLen {l : List Cell} {h : Cell} (hm : h ∈ l) :
    h.length ≤ maxLen l := by
  unfold maxLen
  suffices H : ∀ init : Nat, h.length ≤ l.foldl (fun m x => max m x.length) init by
    exact H 0
  induction l with
  | nil => exact absurd hm (List.not_mem_nil h)
  | cons h0 t ih =>
    intro init
    rcases List.mem_cons.mp hm with rfl | hm'
    · exact le_trans (le_max_right init h.length) (foldl_maxLen_ge t _)
    · exact ih hm' _

theorem noFullAbove_maxLen (l : List Cell) :
    ∀ q : Cell, 1 ≤ q.length → maxLen l < q.length + 1 →
      ¬ ∀ ch ∈ children q, ch ∈ l := by
  intro q _ hlt hall
  have h0 := le_maxLen (hall (q ++ ['0']) (mem_children_iff.mpr ⟨'0', by decide, rfl⟩))
  simp at h0
  omega

/-! ### Sorting and filtering glue -/

theorem sortCells_perm (l : List Cell) : (sortCells l).Perm l :=
  List.perm_insertionSort _ l

theorem sortCells_sorted (l : List Cell) : List.Sorted (· ≤ ·) (sortCells l) :=
  List.sorted_insertionSort _ l

theorem sortCells_of_sorted {l : List Cell} (h : List.Sorted (· ≤ ·) l) :
    sortCells l = l :=
  h.insertionSort_eq

theorem hasAncestorIn_false_of_neAncFree {l : List Cell} (ha : NEAncFree l) :
    ∀ h ∈ l, hasAncestorIn l h = false := by
  intro h hmem
  unfold hasAncestorIn
  rw [List.any_eq_false]
  intro len hlen
  rw [List.mem_range] at hlen
  by_cases h0 : 0 < len
  · by_cases h1 : h.take len ∈ l
    · exfalso
      have hane : h.take len ≠ [] := take_ne_nil len h0 (by omega)
      exact ha _ h1 h hmem hane (strictAncestor_take len h0 hlen)
    · simp [h1]
  · simp [h0]

theorem filter_hasAncestorIn_of_neAncFree {l : List Cell} (ha : NEAncFree l) :
    (l.filter fun h => !hasAncestorIn l h) = l := by
  rw [List.filter_eq_self]
  intro a hmem
  rw [hasAncestorIn_false_of_neAncFree ha a hmem]
  rfl

theorem neAncFree_filter (s : List Cell) :
    NEAncFree (s.filter fun h => !hasAncestorIn s h) := by
  intro a hamem b hbmem hane hsa
  rw [List.mem_filter] at hamem hbmem
  obtain ⟨hsalen, hsatake⟩ := hsa
  have hbf : hasAncestorIn s b = false := by
    have := hbmem.2
    simpa using this
  have htrue : hasAncestorIn s b = true := by
    unfold hasAncestorIn
    rw [List.any_eq_true]
    refine ⟨a.length, List.mem_range.mpr hsalen, ?_⟩
    have h0 : 0 < a.length := List.length_pos.mpr hane
    rw [hsatake]
    simp [h0, hamem.1]
  rw [hbf] at htrue
  exact Bool.false_ne_true htrue

theorem neAncFree_of_perm {l1 l2 : List Cell} (hp : l1.Perm l2)
    (h : NEAncFree l1) : NEAncFree l2 :=
  fun a ha b hb => h a (hp.mem_iff.mpr ha) b (hp.mem_iff.mpr hb)

theorem allValid_of_perm {l1 l2 : List Cell} (hp : l1.Perm l2)
    (h : AllValid l1) : AllValid l2 :=
  fun a ha => h a (hp.mem_iff.mpr ha)

theorem noFull_of_perm {l1 l2 : List Cell} (hp : l1.Perm l2)
    (h : NoFull l1) : NoFull l2 :=
  fun q hq hall => h q hq fun c hc => hp.mem_iff.mpr (hall c hc)

/-! ### The exact-mode compaction pipeline -/

theorem mergeCompleteSiblings_exact (hashes : List Cell)
    (hn : hashes.Nodup) (hv : AllValid hashes) (ha : NEAncFree hashes) :
    (mergeCompleteSiblings hashes 1 32).Nodup ∧
    AllValid (mergeCompleteSiblings hashes 1 32) ∧
    NEAncFree (mergeCompleteSiblings hashes 1 32) ∧
    NoFull (mergeCompleteSiblings hashes 1 32) := by
  have he : mergeCompleteSiblings hashes 1 32 =
      mergeDown 1 32 (maxLen (setOfList hashes)) (setOfList hashes) := rfl
  rw [he, setOfList_eq_self hn]
  exact mergeDown_full (maxLen hashes) hashes hn hv ha (noFullAbove_maxLen hashes)

theorem dedup_exact_props (hashes : List Cell) (hv : AllValid hashes) :
    (deduplicateGeohashes hashes false).Nodup ∧
    AllValid (deduplicateGeohashes hashes false) ∧
    NEAncFree (deduplicateGeohashes hashes false) ∧
    NoFull (deduplicateGeohashes hashes false) ∧
    List.Sorted (· ≤ ·) (deduplicateGeohashes hashes false) := by
  have he : deduplicateGeohashes hashes false =
      sortCells (mergeCompleteSiblings
        ((setOfList hashes).filter fun h => !hasAncestorIn (setOfList hashes) h)
        1 32) := rfl
  have hsn : (setOfList hashes).Nodup := setOfList_nodup hashes
  have hfn : ((setOfList hashes).filter fun h =>
      !hasAncestorIn (setOfList hashes) h).Nodup := hsn.filter _
  have hfv : AllValid ((setOfList hashes).filter fun h =>
      !hasAncestorIn (setOfList hashes) h) := by
    intro x hx
    exact hv x (mem_setOfList.mp (List.mem_filter.mp hx).1)
  have hfa : NEAncFree ((setOfList hashes).filter fun h =>
      !hasAncestorIn (setOfList hashes) h) := neAncFree_filter _
  obtain ⟨h1, h2, h3, h4⟩ := mergeCompleteSiblings_exact _ hfn hfv hfa
  have hperm := sortCells_perm (mergeCompleteSiblings
    ((setOfList hashes).filter fun h => !hasAncestorIn (setOfList hashes) h) 1 32)
  rw [he]
  exact ⟨hperm.nodup_iff.mpr h1, allValid_of_perm hperm.symm h2,
    neAncFree_of_perm hperm.symm h3, noFull_of_perm hperm.symm h4,
    sortCells_sorted _⟩

/-- C7 (amended): in exact mode (`lossy = false`, the `mergeThreshold = 1.0`
behaviour) the compactor is idempotent on any input of alphabet-valid cells:
the first pass leaves a sorted, duplicate-free, ancestor-free set with no
complete sibling group above the floor, on which the second pass's set
construction, ancestor filter, merge loop and sort are all identities. -/
theorem dedup_exact_idempotent (hashes : List Cell) (hv : AllValid hashes) :
    deduplicateGeohashes (deduplicateGeohashes hashes false) false =
      deduplicateGeohashes hashes false := by
  obtain ⟨h1, h2, h3, h4, h5⟩ := dedup_exact_props hashes hv
  have he : deduplicateGeohashes (deduplicateGeohashes hashes false) false =
      sortCells (mergeCompleteSiblings
        ((setOfList (deduplicateGeohashes hashes false)).filter fun h =>
          !hasAncestorIn (setOfList (deduplicateGeohashes hashes false)) h)
        1 32) := rfl
  rw [he, setOfList_eq_self h1, filter_hasAncestorIn_of_neAncFree h3]
  have hm : mergeCompleteSiblings (deduplicateGeohashes hashes false) 1 32 =
      deduplicateGeohashes hashes false := by
    have he2 : mergeCompleteSiblings (deduplicateGeohashes hashes false) 1 32 =
        mergeDown 1 32 (maxLen (setOfList (deduplicateGeohashes hashes false)))
          (setOfList (deduplicateGeohashes hashes false)) := rfl
    rw [he2, setOfList_eq_self h1]
    exact mergeDown_fix _ _ h1 h2 h4
  rw [hm]
  exact sortCells_of_sorted h5

/-- C7 (amended, witness): the lossy counterexample input is idempotent in
exact mode. -/
theorem dedup_exact_idempotent_witness :
    AllValid lossyDedupInput ∧
    deduplicateGeohashes (deduplicateGeohashes lossyDedupInput false) false =
      deduplicateGeohashes lossyDedupInput false :=
  ⟨by decide, dedup_exact_idempotent lossyDedupInput (by decide)⟩

/-- C6 (amended): result sizes are not monotone in `mergeThreshold` (the
retry policy can hand the higher threshold a coarser cover), but the derived
pass parameters are: for fixed precision bounds, both `interiorMinPrecision`
and the sibling-merge threshold `minSiblings` are monotone in the coverage
threshold. -/
theorem threshold_param_monotonicity (P0 P1 : CovParams)
    (hmin : P0.minPrecision = P1.minPrecision)
    (hmax : P0.maxPrecision = P1.maxPrecision)
    (hple : P0.minPrecision ≤ P0.maxPrecision)
    (ht : P0.coverageThreshold ≤ P1.coverageThreshold) :
    P0.interiorMin ≤ P1.interiorMin ∧
    minSiblingsOf P0.coverageThreshold ≤ minSiblingsOf P1.coverageThreshold := by
  constructor
  · unfold CovParams.interiorMin
    rw [← hmin, ← hmax]
    apply Int.ceil_mono
    have hcast : (P0.minPrecision : ℚ) ≤ (P0.maxPrecision : ℚ) := by
      exact_mod_cast hple
    have hd : (0 : ℚ) ≤ (P0.maxPrecision : ℚ) - (P0.minPrecision : ℚ) := by
      linarith
    have := mul_le_mul_of_nonneg_left ht hd
    linarith
  · unfold minSiblingsOf jsRound
    apply Int.floor_mono
    linarith

/-- C6 (amended, witness): at precisions 1–9 the derived parameters at
threshold 0 are below those at threshold 1. -/
theorem threshold_param_monotonicity_witness :
    CovParams.interiorMin ⟨triPoly, [], 1, 9, 0, none⟩ ≤
      CovParams.interiorMin ⟨triPoly, [], 1, 9, 1, none⟩ ∧
    minSiblingsOf 0 ≤ minSiblingsOf 1 :=
  threshold_param_monotonicity ⟨triPoly, [], 1, 9, 0, none⟩
    ⟨triPoly, [], 1, 9, 1, none⟩ rfl rfl (by norm_num) (by norm_num)

/-! ### Independence of queue cells -/

theorem indep_symm {a b : Cell} (h : Indep a b) : Indep b a := by
  obtain ⟨h1, h2, h3⟩ := h
  exact ⟨Ne.symm h1, h3, h2⟩

theorem children_pairwise (h : Cell) : (children h).Pairwise Indep := by
  unfold children
  rw [List.pairwise_map]
  refine base32_nodup.imp_of_mem ?_
  intro a b _ _ hab
  refine ⟨?_, ?_, ?_⟩
  · intro he
    exact hab (by simpa using he)
  · intro hsa
    obtain ⟨hl, _⟩ := hsa
    simp at hl
  · intro hsa
    obtain ⟨hl, _⟩ := hsa
    simp at hl

theorem indep_child {x h c : Cell} (hx : Indep x h) (hc : c ∈ children h) :
    Indep x c := by
  obtain ⟨hne, hxa, hax⟩ := hx
  rcases mem_children_iff.mp hc with ⟨ch, _, rfl⟩
  have hhl : (h ++ [ch]).length = h.length + 1 := by simp
  refine ⟨?_, ?_, ?_⟩
  · intro he
    subst he
    exact hax ⟨by omega, by simp⟩
  · intro hsa
    obtain ⟨hl, ht⟩ := hsa
    rw [hhl] at hl
    have hle : x.length ≤ h.length := by omega
    have hsplit : (h ++ [ch]).take x.length = h.take x.length :=
      List.take_append_of_le_length hle
    by_cases hxh : x.length = h.length
    · apply hne
      rw [← ht, hxh, List.take_left]
    · apply hxa
      refine ⟨by omega, ?_⟩
      rw [← hsplit]
      exact ht
  · intro hsa
    obtain ⟨hl, ht⟩ := hsa
    rw [hhl] at hl
    apply hax
    refine ⟨by omega, ?_⟩
    have ht2 : x.take (h.length + 1) = h ++ [ch] := by
      rw [← hhl]
      exact ht
    have he : x.take h.length = (x.take (h.length + 1)).take h.length := by
      rw [List.take_take]
      congr 1
      omega
    rw [he, ht2, List.take_left]

theorem classifyChild_cases (P : CovParams) (acc : List Cell × List Cell)
    (x : Cell) :
    classifyChild P acc x = acc ∨
    classifyChild P acc x = (acc.1, acc.2 ++ [x]) ∨
    classifyChild P acc x = (acc.1 ++ [x], acc.2) := by
  unfold classifyChild
  by_cases g1 : aabbReject (polyAABB P.polygon) (bounds x) = true <;>
    by_cases g2 : isFullyInside P.polygon P.holes (bounds x) = true <;>
      by_cases g3 : doesOverlap P.polygon P.holes (bounds x) = true <;>
        by_cases g4 : P.interiorMin ≤ (x.length : ℤ) <;>
          simp [g1, g2, g3, g4]

theorem foldl_classify_subperm (P : CovParams) (cs : List Cell) :
    ∀ acc : List Cell × List Cell,
      ((cs.foldl (classifyChild P) acc).1 ++
        (cs.foldl (classifyChild P) acc).2).Subperm ((acc.1 ++ acc.2) ++ cs) := by
  induction cs with
  | nil =>
    intro acc
    simp
    exact List.Subperm.refl _
  | cons c cs ih =>
    intro acc
    rw [List.foldl_cons]
    refine (ih (classifyChild P acc c)).trans ?_
    have hcc : ((classifyChild P acc c).1 ++ (classifyChild P acc c).2).Subperm
        ((acc.1 ++ acc.2) ++ [c]) := by
      rcases classifyChild_cases P acc c with he | he | he <;> rw [he]
      · exact (List.sublist_append_left _ _).subperm
      · rw [← List.append_assoc]
      · refine List.Perm.subperm ?_
        have h1 : (acc.1 ++ [c]) ++ acc.2 = acc.1 ++ ([c] ++ acc.2) := by
          rw [List.append_assoc]
        have h3 : acc.1 ++ (acc.2 ++ [c]) = (acc.1 ++ acc.2) ++ [c] := by
          rw [List.append_assoc]
        rw [h1, ← h3]
        exact List.Perm.append_left _ List.perm_append_comm
    have h4 : ((acc.1 ++ acc.2) ++ [c]) ++ cs = (acc.1 ++ acc.2) ++ (c :: cs) := by
      simp
    rw [← h4]
    exact (List.subperm_append_right cs).mpr hcc

theorem covStep_out (P : CovParams) (h : Cell) :
    ((covStep P h).1 ++ (covStep P h).2 = [h]) ∨
    ((covStep P h).1 ++ (covStep P h).2 = []) ∨
    (((covStep P h).1 ++ (covStep P h).2).Subperm (children h) ∧
      h.length + 1 ≤ covCap P) := by
  unfold covStep
  by_cases g1 : isFullyInside P.polygon P.holes (bounds h) = true
  · by_cases g2 : P.interiorMin ≤ (h.length : ℤ)
    · left
      simp [g1, g2]
    · right; right
      constructor
      · rw [if_pos g1, if_neg g2]
        simpa using (List.reverse_perm (children h)).subperm
      · push_neg at g2
        have h1 : (h.length : ℤ) + 1 ≤ P.interiorMin := by omega
        unfold covCap
        omega
  · by_cases g3 : P.maxPrecision ≤ (h.length : ℤ)
    · by_cases g4 : doesOverlap P.polygon P.holes (bounds h) = true
      · left
        simp [g1, g3, g4]
      · right; left
        simp [g1, g3, g4]
    · right; right
      constructor
      · rw [if_neg g1, if_neg g3]
        refine List.Subperm.trans ?_ (foldl_classify_subperm P (children h) ([], []))
        refine List.Perm.subperm ?_
        exact List.Perm.append_right _ (List.reverse_perm _)
      · push_neg at g3
        have h1 : (h.length : ℤ) + 1 ≤ P.maxPrecision := by omega
        unfold covCap
        omega

theorem covStep_mem_good (P : CovParams) (h : Cell) :
    ∀ c ∈ (covStep P h).1 ++ (covStep P h).2,
      c = h ∨ (c ∈ children h ∧ h.length + 1 ≤ covCap P) := by
  intro c hc
  rcases covStep_out P h with he | he | ⟨hsp, hcap⟩
  · rw [he] at hc
    exact .inl (List.mem_singleton.mp hc)
  · rw [he] at hc
    exact absurd hc (List.not_mem_nil c)
  · exact .inr ⟨hsp.subset hc, hcap⟩

theorem pairwise_of_subperm {l1 l2 : List Cell} (hsp : l1.Subperm l2)
    (h : l2.Pairwise Indep) : l1.Pairwise Indep := by
  obtain ⟨l3, hperm, hsub⟩ := hsp
  have h3 : l3.Pairwise Indep := List.Pairwise.sublist hsub h
  exact (hperm.pairwise_iff fun hab => indep_symm hab).mp h3

theorem covStep_pairwise (P : CovParams) (h : Cell) :
    ((covStep P h).1 ++ (covStep P h).2).Pairwise Indep := by
  rcases covStep_out P h with he | he | ⟨hsp, _⟩
  · rw [he]
    simp
  · rw [he]
    simp
  · exact pairwise_of_subperm hsp (children_pairwise h)

theorem covStep_good_out (P : CovParams) {h : Cell} (hGh : GoodCell P h) :
    ∀ x ∈ (covStep P h).1 ++ (covStep P h).2, GoodCell P x := by
  intro x hx
  rcases covStep_mem_good P h x hx with rfl | ⟨hch, hcap⟩
  · exact hGh
  · have hl := mem_children_length hch
    refine ⟨valid_of_mem_children hGh.1 hch, ?_, ?_⟩
    · intro he
      rw [he] at hl
      simp at hl
    · intro _
      omega

theorem covLoop_good (P : CovParams) :
    ∀ (fuel : Nat) (queue resultRev : List Cell) (n : Nat) (r : List Cell),
      (∀ h ∈ queue ++ resultRev, GoodCell P h) →
      (queue ++ resultRev).Pairwise Indep →
      covLoop P fuel queue resultRev n = some (some r) →
      (∀ h ∈ r, GoodCell P h) ∧ r.Pairwise Indep := by
  intro fuel
  induction fuel with
  | zero =>
    intro queue resultRev n r _ _ hr
    rw [covLoop] at hr
    exact absurd hr (by simp)
  | succ fuel ih =>
    intro queue resultRev n r hmem hpw hr
    cases queue with
    | nil =>
      rw [covLoop] at hr
      have hrr : resultRev = r := by
        injection hr with h1
        injection h1
      subst hrr
      exact ⟨fun h hh => hmem h (by simpa using hh), by simpa using hpw⟩
    | cons h rest =>
      rw [covLoop] at hr
      split at hr
      · exact absurd hr (by simp)
      · have hGh : GoodCell P h := hmem h (by simp)
        have hout := covStep_good_out P hGh
        have hON : ∀ c ∈ (covStep P h).1 ++ (covStep P h).2,
            ∀ x ∈ rest ++ resultRev, Indep c x := by
          intro c hc x hx
          have hHx : Indep h x := by
            rw [List.cons_append, List.pairwise_cons] at hpw
            exact hpw.1 x hx
          rcases covStep_mem_good P h c hc with rfl | ⟨hch, _⟩
          · exact hHx
          · exact indep_symm (indep_child (indep_symm hHx) hch)
        rw [List.cons_append, List.pairwise_cons] at hpw
        obtain ⟨hHead, hTail⟩ := hpw
        rw [List.pairwise_append] at hTail
        obtain ⟨hRest, hRes, hCross⟩ := hTail
        have hsp := covStep_pairwise P h
        rw [List.pairwise_append] at hsp
        obtain ⟨hS1, hS2, hS12⟩ := hsp
        refine ih ((covStep P h).1 ++ rest)
          ((covStep P h).2.reverse ++ resultRev) _ r ?_ ?_ hr
        · intro x hx
          rcases List.mem_append.mp hx with hx1 | hx2
          · rcases List.mem_append.mp hx1 with hx1a | hx1b
            · exact hout x (List.mem_append.mpr (.inl hx1a))
            · exact hmem x (by simp [hx1b])
          · rcases List.mem_append.mp hx2 with hx2a | hx2b
            · exact hout x (List.mem_append.mpr (.inr (List.mem_reverse.mp hx2a)))
            · exact hmem x (by simp [hx2b])
        · rw [List.pairwise_append]
          refine ⟨?_, ?_, ?_⟩
          · rw [List.pairwise_append]
            refine ⟨hS1, hRest, ?_⟩
            intro a ha b hb
            exact hON a (List.mem_append.mpr (.inl ha))
              b (List.mem_append.mpr (.inl hb))
          · rw [List.pairwise_append]
            refine ⟨?_, hRes, ?_⟩
            · rw [List.pairwise_reverse]
              exact hS2.imp fun hab => indep_symm hab
            · intro a ha b hb
              exact hON a (List.mem_append.mpr (.inr (List.mem_reverse.mp ha)))
                b (List.mem_append.mpr (.inr hb))
          · intro a ha b hb
            rcases List.mem_append.mp ha with ha1 | ha2
            · rcases List.mem_append.mp hb with hb1 | hb2
              · exact hS12 a ha1 b (List.mem_reverse.mp hb1)
              · exact hON a (List.mem_append.mpr (.inl ha1))
                  b (List.mem_append.mpr (.inr hb2))
            · rcases List.mem_append.mp hb with hb1 | hb2
              · exact indep_symm (hON b
                  (List.mem_append.mpr (.inr (List.mem_reverse.mp hb1)))
                  a (List.mem_append.mpr (.inl ha2)))
              · exact hCross a ha2 b hb2

theorem seedCells_good (P : CovParams) : ∀ h ∈ seedCells P, GoodCell P h := by
  intro h hh
  unfold seedCells at hh
  rw [List.mem_filter] at hh
  have hch := hh.1
  have hlen : h.length = 1 := by simpa using mem_children_length hch
  refine ⟨valid_of_mem_children (fun c hc => absurd hc (List.not_mem_nil c)) hch,
    ?_, ?_⟩
  · intro he
    rw [he] at hlen
    simp at hlen
  · intro h1
    omega

theorem seedCells_pairwise (P : CovParams) : (seedCells P).Pairwise Indep := by
  unfold seedCells
  exact List.Pairwise.sublist (List.filter_sublist _) (children_pairwise [])

theorem computeGeohashesRun_good (P : CovParams) (rr : List Cell)
    (h : computeGeohashesRun P = some (some rr)) :
    (∀ h ∈ rr, GoodCell P h) ∧ rr.Pairwise Indep := by
  unfold computeGeohashesRun at h
  refine covLoop_good P (covFuel P) (seedCells P).reverse [] 0 rr ?_ ?_ h
  · intro x hx
    simp at hx
    exact seedCells_good P x hx
  · simp only [List.append_nil]
    rw [List.pairwise_reverse]
    exact (seedCells_pairwise P).imp fun hab => indep_symm hab

theorem neAncFree_subset {l1 l2 : List Cell} (hsub : l1 ⊆ l2)
    (h : NEAncFree l2) : NEAncFree l1 :=
  fun a ha b hb => h a (hsub ha) b (hsub hb)

theorem pairwise_indep_neAncFree {l : List Cell} (h : l.Pairwise Indep) :
    NEAncFree l := by
  intro a ha b hb hane hsa
  by_cases hab : a = b
  · subst hab
    exact strictAncestor_irrefl a hsa
  · have hi : Indep a b :=
      List.Pairwise.forall (fun x y hxy => indep_symm hxy) h ha hb hab
    obtain ⟨_, hnab, _⟩ := hi
    exact hnab hsa

theorem maxLen_le {l : List Cell} {N : Nat} (h : ∀ x ∈ l, x.length ≤ N) :
    maxLen l ≤ N := by
  unfold maxLen
  refine foldl_invariant _ (fun m => m ≤ N) l 0 (by omega) ?_
  intro a b hb ha
  exact max_le ha (h b hb)

theorem mergeDown_stop (minP ms : ℤ) (p : Nat) (l : List Cell)
    (hle : (p : ℤ) ≤ minP) : mergeDown minP ms p l = l := by
  cases p with
  | zero => rw [mergeDown]
  | succ p =>
    rw [mergeDown]
    rw [if_pos (by push_cast at hle ⊢; omega)]

theorem mergeLevel_good (ms : ℤ) (p : Nat) (l : List Cell) (hp : 2 ≤ p)
    (h : ∀ x ∈ l, ValidCell x ∧ x ≠ []) :
    ∀ x ∈ mergeLevel ms p l, ValidCell x ∧ x ≠ [] := by
  unfold mergeLevel applyMerges
  refine foldl_invariant _ (fun acc => ∀ x ∈ acc, ValidCell x ∧ x ≠ [])
    (parentCounts p l) l h ?_
  intro acc qc hqc hacc
  by_cases hfire : ms ≤ (qc.2 : ℤ)
  · rw [if_pos hfire]
    intro x hx
    rcases mem_setAdd.mp hx with hx' | rfl
    · exact hacc x (foldl_erase_subset _ acc hx')
    · obtain ⟨x1, hx1l, hx1len, hx1q⟩ := parentCounts_key hqc
      refine ⟨by rw [hx1q]; exact valid_dropLast (h x1 hx1l).1, ?_⟩
      intro he
      have h2 : qc.1.length + 1 = p := by
        rw [hx1q, List.length_dropLast]
        omega
      rw [he] at h2
      simp at h2
      omega
  · rwa [if_neg hfire]

theorem mergeDown_good (minP ms : ℤ) (hminP : 1 ≤ minP) :
    ∀ (p : Nat) (l : List Cell), (∀ x ∈ l, ValidCell x ∧ x ≠ []) →
      ∀ x ∈ mergeDown minP ms p l, ValidCell x ∧ x ≠ [] := by
  intro p
  induction p with
  | zero =>
    intro l h
    rw [mergeDown]
    exact h
  | succ p ih =>
    intro l h
    rw [mergeDown]
    by_cases hle : ((p : ℤ) + 1) ≤ minP
    · rw [if_pos hle]
      exact h
    · rw [if_neg hle]
      exact ih _ (mergeLevel_good ms (p + 1) l (by omega) h)

theorem ancFreeList_of (l : List Cell) (h1 : NEAncFree l)
    (h2 : ∀ x ∈ l, x ≠ []) : AncFreeList l :=
  fun a ha b hb => h1 a ha b hb (h2 a ha)

theorem computeGeohashes_props (polygon : List Point) (holes : List (List Point))
    (minP mp : ℤ) (t : ℚ) (bail : Option ℚ) (r : List Cell)
    (hminP : 1 ≤ minP)
    (h : computeGeohashes polygon holes minP mp t bail = some r) :
    (∀ c ∈ r, ValidCell c ∧ c ≠ []) ∧
    (32 ≤ minSiblingsOf t → AncFreeList r) := by
  unfold computeGeohashes at h
  dsimp only at h
  split at h
  · exact absurd h (by simp)
  · exact absurd h (by simp)
  next rr hrun =>
    have hr : r = sortCells (mergeCompleteSiblings rr.reverse minP
        (minSiblingsOf t)) := by
      injection h with h1
      exact h1.symm
    obtain ⟨hgood, hpw⟩ := computeGeohashesRun_good _ rr hrun
    have hgoodR : ∀ c ∈ rr.reverse, ValidCell c ∧ c ≠ [] := by
      intro c hc
      have := hgood c (List.mem_reverse.mp hc)
      exact ⟨this.1, this.2.1⟩
    have hpwR : rr.reverse.Pairwise Indep := by
      rw [List.pairwise_reverse]
      exact hpw.imp fun hab => indep_symm hab
    have hne : NEAncFree rr.reverse := pairwise_indep_neAncFree hpwR
    have hmcs : mergeCompleteSiblings rr.reverse minP (minSiblingsOf t) =
        mergeDown minP (minSiblingsOf t) (maxLen (setOfList rr.reverse))
          (setOfList rr.reverse) := rfl
    have hsgood : ∀ c ∈ setOfList rr.reverse, ValidCell c ∧ c ≠ [] :=
      fun c hc => hgoodR c (mem_setOfList.mp hc)
    have hsnd : (setOfList rr.reverse).Nodup := setOfList_nodup _
    have hsne : NEAncFree (setOfList rr.reverse) :=
      neAncFree_subset (fun x hx => mem_setOfList.mp hx) hne
    constructor
    · rw [hr]
      intro c hc
      have hc2 : c ∈ mergeCompleteSiblings rr.reverse minP (minSiblingsOf t) :=
        (sortCells_perm _).mem_iff.mp hc
      rw [hmcs] at hc2
      exact mergeDown_good minP (minSiblingsOf t) hminP _ _ hsgood c hc2
    · intro hms
      rw [hr]
      obtain ⟨hnd2, hv2, hna2, hne2⟩ :=
        mergeDown_inv minP (minSiblingsOf t) hms hminP
          (maxLen (setOfList rr.reverse)) (setOfList rr.reverse) hsnd
          (fun c hc => (hsgood c hc).1) hsne (fun c hc => (hsgood c hc).2)
      refine ancFreeList_of _ ?_ ?_
      · refine neAncFree_of_perm (sortCells_perm _).symm ?_
        rw [hmcs]
        exact hna2
      · intro x hx
        have hx2 := (sortCells_perm _).mem_iff.mp hx
        rw [hmcs] at hx2
        exact hne2 x hx2

theorem computeGeohashes_fallback_ancfree (polygon : List Point)
    (holes : List (List Point)) (minP : ℤ) (bail : Option ℚ) (r : List Cell)
    (hminP : 1 ≤ minP)
    (h : computeGeohashes polygon holes minP minP 0 bail = some r) :
    AncFreeList r := by
  unfold computeGeohashes at h
  dsimp only at h
  split at h
  · exact absurd h (by simp)
  · exact absurd h (by simp)
  next rr hrun =>
    have hr : r = sortCells (mergeCompleteSiblings rr.reverse minP
        (minSiblingsOf 0)) := by
      injection h with h1
      exact h1.symm
    obtain ⟨hgood, hpw⟩ := computeGeohashesRun_good _ rr hrun
    have hcap : covCap ⟨polygon, holes, minP, minP, 0, bail⟩ = minP.toNat := by
      unfold covCap CovParams.interiorMin
      simp
    have hcap1 : 1 ≤ covCap ⟨polygon, holes, minP, minP, 0, bail⟩ := by
      rw [hcap]
      omega
    have hgoodR : ∀ c ∈ rr.reverse, ValidCell c ∧ c ≠ [] ∧
        c.length ≤ minP.toNat := by
      intro c hc
      have hg := hgood c (List.mem_reverse.mp hc)
      refine ⟨hg.1, hg.2.1, ?_⟩
      have := hg.2.2 hcap1
      rwa [hcap] at this
    have hpwR : rr.reverse.Pairwise Indep := by
      rw [List.pairwise_reverse]
      exact hpw.imp fun hab => indep_symm hab
    have hne : NEAncFree rr.reverse := pairwise_indep_neAncFree hpwR
    have hmcs : mergeCompleteSiblings rr.reverse minP (minSiblingsOf 0) =
        mergeDown minP (minSiblingsOf 0) (maxLen (setOfList rr.reverse))
          (setOfList rr.reverse) := rfl
    have hlen : maxLen (setOfList rr.reverse) ≤ minP.toNat :=
      maxLen_le fun x hx => (hgoodR x (mem_setOfList.mp hx)).2.2
    have hstop : mergeDown minP (minSiblingsOf 0)
        (maxLen (setOfList rr.reverse)) (setOfList rr.reverse) =
          setOfList rr.reverse := by
      refine mergeDown_stop _ _ _ _ ?_
      omega
    rw [hr, hmcs, hstop]
    refine ancFreeList_of _ ?_ ?_
    · refine neAncFree_of_perm (sortCells_perm _).symm ?_
      exact neAncFree_subset (fun x hx => mem_setOfList.mp hx) hne
    · intro x hx
      have hx2 := (sortCells_perm _).mem_iff.mp hx
      exact (hgoodR x (mem_setOfList.mp hx2)).2.1

theorem dedup_false_props (hashes : List Cell)
    (hgood : ∀ c ∈ hashes, ValidCell c ∧ c ≠ []) :
    AncFreeList (deduplicateGeohashes hashes false) := by
  obtain ⟨h1, h2, h3, h4, h5⟩ :=
    dedup_exact_props hashes fun c hc => (hgood c hc).1
  refine ancFreeList_of _ h3 ?_
  have he : deduplicateGeohashes hashes false =
      sortCells (mergeCompleteSiblings
        ((setOfList hashes).filter fun h => !hasAncestorIn (setOfList hashes) h)
        1 32) := rfl
  have hmcs : mergeCompleteSiblings
      ((setOfList hashes).filter fun h => !hasAncestorIn (setOfList hashes) h)
      1 32 =
      mergeDown 1 32
        (maxLen (setOfList ((setOfList hashes).filter fun h =>
          !hasAncestorIn (setOfList hashes) h)))
        (setOfList ((setOfList hashes).filter fun h =>
          !hasAncestorIn (setOfList hashes) h)) := rfl
  intro x hx
  rw [he] at hx
  have hx2 := (sortCells_perm _).mem_iff.mp hx
  rw [hmcs] at hx2
  have hfg : ∀ c ∈ setOfList ((setOfList hashes).filter fun h =>
      !hasAncestorIn (setOfList hashes) h), ValidCell c ∧ c ≠ [] := by
    intro c hc
    have hc2 := mem_setOfList.mp hc
    rw [List.mem_filter] at hc2
    exact hgood c (mem_setOfList.mp hc2.1)
  exact (mergeDown_good 1 32 (by omega) _ _ hfg x hx2).2

theorem attemptLoop_some_exists (polygon : List Point)
    (holes : List (List Point)) (minP : ℤ) (t mc bail : ℚ) :
    ∀ (n : Nat) (mp : ℤ) (r : List Cell),
      attemptLoop polygon holes minP t mc bail n mp = some r →
      ∃ mp', computeGeohashes polygon holes minP mp' t (some bail) = some r := by
  intro n
  induction n with
  | zero =>
    intro mp r h
    rw [attemptLoop] at h
    exact absurd h (by simp)
  | succ n ih =>
    intro mp r h
    rw [attemptLoop] at h
    split at h
    next r' hcg =>
      split at h
      · injection h with h1
        subst h1
        exact ⟨mp, hcg⟩
      · exact ih (mp - 1) r h
    next hcg => exact ih (mp - 1) r h

theorem multiAttemptLoop_some_exists (parts : List NormalisedPolygon)
    (minP : ℤ) (t mc bail : ℚ) :
    ∀ (n : Nat) (mp : ℤ) (r : List Cell),
      multiAttemptLoop parts minP t mc bail n mp = some r →
      ∃ all, (∃ mp', partsHashes parts minP mp' t bail = some all) ∧
        r = deduplicateGeohashes all false := by
  intro n
  induction n with
  | zero =>
    intro mp r h
    rw [multiAttemptLoop] at h
    exact absurd h (by simp)
  | succ n ih =>
    intro mp r h
    rw [multiAttemptLoop] at h
    split at h
    next hph => exact ih (mp - 1) r h
    next all hph =>
      dsimp only at h
      split at h
      · injection h with h1
        subst h1
        exact ⟨all, ⟨mp, hph⟩, rfl⟩
      · exact ih (mp - 1) r h

theorem partsHashes_good (minP : ℤ) (t bail : ℚ) (hminP : 1 ≤ minP) :
    ∀ (parts : List NormalisedPolygon) (mp : ℤ) (all : List Cell),
      partsHashes parts minP mp t bail = some all →
      ∀ c ∈ all, ValidCell c ∧ c ≠ [] := by
  intro parts
  induction parts with
  | nil =>
    intro mp all h
    rw [partsHashes] at h
    injection h with h1
    subst h1
    intro c hc
    exact absurd hc (List.not_mem_nil c)
  | cons part rest ih =>
    intro mp all h
    rw [partsHashes] at h
    split at h
    · exact ih mp all h
    · split at h
      next hcg => exact absurd h (by simp)
      next r' hcg =>
        cases hph : partsHashes rest minP mp t bail with
        | none =>
          rw [hph] at h
          exact absurd h (by simp)
        | some tl =>
          rw [hph] at h
          simp at h
          subst h
          intro c hc
          rcases List.mem_append.mp hc with hc1 | hc2
          · exact (computeGeohashes_props _ _ _ _ _ _ _ hminP hcg).1 c hc1
          · exact ih mp tl hph c hc2

theorem multiFallbackAll_good (minP : ℤ) (hminP : 1 ≤ minP) :
    ∀ parts : List NormalisedPolygon,
      ∀ c ∈ multiFallbackAll parts minP, ValidCell c ∧ c ≠ [] := by
  intro parts
  induction parts with
  | nil =>
    intro c hc
    rw [multiFallbackAll] at hc
    exact absurd hc (List.not_mem_nil c)
  | cons part rest ih =>
    intro c hc
    rw [multiFallbackAll] at hc
    split at hc
    · exact ih c hc
    · rcases List.mem_append.mp hc with hc1 | hc2
      · cases hcg : computeGeohashes part.outer part.holes minP minP 0 none with
        | none =>
          rw [hcg] at hc1
          exact absurd hc1 (List.not_mem_nil c)
        | some fb =>
          rw [hcg] at hc1
          exact (computeGeohashes_props _ _ _ _ _ _ _ hminP hcg).1 c hc1
      · exact ih c hc2

theorem singlePath_ok_ancfree (np : NormalisedPolygon) (o : CoverageOptions)
    (hthr : effThreshold o = 1) (r : List Cell)
    (h : singlePath np o = .ok r) : AncFreeList r := by
  unfold singlePath at h
  split at h
  · exact absurd h (by simp)
  · dsimp only at h
    split at h
    next r' hat =>
      injection h with h1
      subst h1
      obtain ⟨mp', hcg⟩ := attemptLoop_some_exists _ _ _ _ _ _ _ _ _ hat
      rw [hthr] at hcg
      exact (computeGeohashes_props _ _ _ _ _ _ _ (one_le_effMinP o) hcg).2
        (by decide)
    next hat =>
      split at h
      · injection h with h1
        subst h1
        cases hcg : computeGeohashes np.outer np.holes (effMinP o) (effMinP o)
            0 none with
        | none =>
          intro a ha
          simp at ha
        | some fb =>
          exact computeGeohashes_fallback_ancfree _ _ _ _ fb
            (one_le_effMinP o) hcg
      · exact absurd h (by simp)

theorem multiPath_ok_ancfree (coords : List (List (List Point)))
    (o : CoverageOptions) (r : List Cell)
    (h : multiPath coords o = .ok r) : AncFreeList r := by
  unfold multiPath at h
  split at h
  · injection h with h1
    subst h1
    intro a ha
    exact absurd ha (List.not_mem_nil a)
  · split at h
    · exact absurd h (by simp)
    next parts hparts =>
      split at h
      · exact absurd h (by simp)
      · dsimp only at h
        split at h
        next r' hml =>
          injection h with h1
          subst h1
          obtain ⟨all, ⟨mp', hph⟩, rfl⟩ :=
            multiAttemptLoop_some_exists _ _ _ _ _ _ _ _ hml
          exact dedup_false_props all
            (partsHashes_good _ _ _ (one_le_effMinP o) parts mp' all hph)
        next hml =>
          split at h
          · injection h with h1
            subst h1
            exact dedup_false_props _
              (fun c hc => multiFallbackAll_good _ (one_le_effMinP o) parts c hc)
          · exact absurd h (by simp)

/-- C2 (amended): under the exact merge threshold (`effThreshold o = 1`) every
normally returned result of `polygonToGeohashes` is free of strict
ancestor-descendant pairs.  (The invariant as claimed — for *every*
`mergeThreshold` — is refuted separately: a lossy sibling merge can install a
parent above a surviving deeper cell.) -/
theorem no_ancestor_exact (input : PolygonInput) (o : CoverageOptions)
    (hthr : effThreshold o = 1) (r : List Cell)
    (h : polygonToGeohashes input o = .ok r) :
    AncFreeList r := by
  unfold polygonToGeohashes at h
  split at h
  · exact absurd h (by simp)
  · cases input with
    | multi coords => exact multiPath_ok_ancfree coords o r h
    | ring v =>
      dsimp only at h
      split at h
      · exact absurd h (by simp)
      next np hnp => exact singlePath_ok_ancfree np o hthr r h
    | poly coords =>
      dsimp only at h
      split at h
      · exact absurd h (by simp)
      next np hnp => exact singlePath_ok_ancfree np o hthr r h

/-- C2 (amended, witness): the exact-mode triangle cover is ancestor-free. -/
theorem no_ancestor_exact_witness :
    effThreshold triOpts = 1 ∧
    polygonToGeohashes (.ring triPoly) triOpts = .ok [['e'], ['s']] ∧
    AncFreeList [['e'], ['s']] := by
  have hok : polygonToGeohashes (.ring triPoly) triOpts = .ok [['e'], ['s']] := by
    decide
  exact ⟨by decide, hok, no_ancestor_exact (.ring triPoly) triOpts (by decide) _ hok⟩

/-- C2 (counterexample): with `mergeThreshold = 0` (`minSiblings = 24`) the
cover of `rectPoly` at precisions 1–3 merges a lossy sibling group into a
parent while deeper cells under the two missing siblings survive, so the
returned result contains a strict ancestor-descendant pair. -/
theorem lossy_merge_ancestor_pair :
    hasReturnedAncPair (polygonToGeohashes (.ring rectPoly) lossyCoverOpts) =
      true := by
  decide
end GeohashKit
